import Mathlib

/-!
# Shallow embedding of the burrow replication core

This file embeds, in Lean 4, the replication core of the burrow peer-to-peer
messenger: the CRDT primitives (`LWWRegister`, `ORSet`, `HybridLogicalClock`,
`VectorClock`), the replicated `Channel`, the `MessageDAG` with causal
topological ordering, and the clock discipline of the sync engine.

Modelling conventions:
* 128-bit identifiers (UUIDs, `PeerId`, `ChannelId`, `MessageId`) are modelled
  as `Nat` together with its linear order (UUID v7 ids are totally ordered in
  the source, compared bytewise); the `Nat` alias is used directly in field
  types so that arithmetic automation sees through it.
* `u64` counters are modelled as `Nat`, and every increment the source
  performs with wrapping `u64` arithmetic — the HLC `logical` bumps in
  `tick`/`update`, the Lamport receive rule, vector-clock increments — is
  taken modulo `2^64` (`u64Mod`), matching release-build wrap-around.
  `u64` values that are only compared, never incremented (physical times,
  `created_at`, sort keys), cannot overflow and stay plain `Nat`.
* `SystemTime` values (`created_at`, the physical component of timestamps)
  are modelled as `Nat` milliseconds.  Functions of the source that read the
  ambient wall clock (`SystemTime::now`) take the sampled value `now : Nat`
  as an explicit argument.
* `HashMap`s whose contents are only ever read pointwise are modelled as
  total functions where a missing entry is the default (`0` for vector-clock
  entries, `∅` for tag and head sets); `HashMap`s that the code iterates over
  (the message store of the DAG) are modelled as association lists in an
  arbitrary order, and order independence is stated as quantification over
  permutations of that list.
* `HashSet`s are modelled as `Finset`s.
* in-degree counters in Kahn's algorithm (`usize` in the source, decremented
  with wrap-around semantics in release builds) are modelled as `Int`, which
  agrees with wrap-around on the reachable range.
-/

/-- The modulus of wrapping `u64` arithmetic, `2 ^ 64`. -/
def u64Mod : Nat := 18446744073709551616

/-- `Timestamp` from `src/crdt/mod.rs`: physical milliseconds, logical
counter, and the emitting peer (`PeerId`, modelled as `Nat`) for
tie-breaking. -/
structure Timestamp where
  physical : Nat
  logical : Nat
  peer_id : Nat
deriving DecidableEq, Repr

/-- The strict order on `Timestamp` derived in the source
(`derive(PartialOrd, Ord)`): lexicographic on
(`physical`, `logical`, `peer_id`). -/
def tsLt (a b : Timestamp) : Prop :=
  a.physical < b.physical ∨
    (a.physical = b.physical ∧
      (a.logical < b.logical ∨
        (a.logical = b.logical ∧ a.peer_id < b.peer_id)))

instance (a b : Timestamp) : Decidable (tsLt a b) := by
  unfold tsLt; infer_instance

theorem tsLt_irrefl (a : Timestamp) : ¬ tsLt a a := by
  obtain ⟨ap, al, ai⟩ := a
  simp only [tsLt, true_and, and_true]
  omega

theorem tsLt_trans {a b c : Timestamp} (h1 : tsLt a b) (h2 : tsLt b c) :
    tsLt a c := by
  obtain ⟨ap, al, ai⟩ := a
  obtain ⟨bp, bl, bi⟩ := b
  obtain ⟨cp, cl, ci⟩ := c
  simp only [tsLt, true_and, and_true] at *
  omega

theorem tsLt_asymm {a b : Timestamp} (h : tsLt a b) : ¬ tsLt b a := by
  obtain ⟨ap, al, ai⟩ := a
  obtain ⟨bp, bl, bi⟩ := b
  simp only [tsLt, true_and, and_true] at *
  omega

/-- Trichotomy: two timestamps that are not strictly ordered either way are
equal componentwise. -/
theorem tsEq_of_not_lt {a b : Timestamp} (h1 : ¬ tsLt a b) (h2 : ¬ tsLt b a) :
    a = b := by
  obtain ⟨ap, al, ai⟩ := a
  obtain ⟨bp, bl, bi⟩ := b
  simp only [tsLt, true_and, and_true] at h1 h2
  simp only [Timestamp.mk.injEq]
  omega

/-- `LWWRegister<T>` from `src/crdt/lww_register.rs`. -/
structure LWWRegister (α : Type) where
  value : α
  timestamp : Timestamp
deriving DecidableEq, Repr

namespace LWWRegister

/-- `LWWRegister::set`: only update if the new timestamp is strictly
greater. -/
def set {α : Type} (r : LWWRegister α) (v : α) (t : Timestamp) :
    LWWRegister α :=
  if tsLt r.timestamp t then ⟨v, t⟩ else r

/-- `LWWRegister::merge`: adopt the other register's value and timestamp iff
`other.timestamp > self.timestamp`. -/
def merge {α : Type} (r other : LWWRegister α) : LWWRegister α :=
  if tsLt r.timestamp other.timestamp then ⟨other.value, other.timestamp⟩
  else r

end LWWRegister

/-- `ORSet<T>` from `src/crdt/or_set.rs`.  The `HashMap<T, HashSet<Uuid>>` of
add-tags is modelled as a total function into `Finset Nat` (tags are Uuids,
modelled as `Nat`); an element with no entry is mapped to `∅`.  All observable
operations (`contains`, `elements`) only depend on this abstraction. -/
structure ORSet (α : Type) where
  tags : α → Finset Nat

namespace ORSet

/-- `ORSet::new`. -/
def new (α : Type) : ORSet α := ⟨fun _ => ∅⟩

/-- `ORSet::add`: insert a fresh unique tag for `element`.  The source
generates the tag with `Uuid::now_v7()`; here it is an explicit argument. -/
def add {α : Type} [DecidableEq α] (s : ORSet α) (element : α) (tag : Nat) :
    ORSet α :=
  ⟨fun y => if y = element then insert tag (s.tags y) else s.tags y⟩

/-- `ORSet::remove`: delete all currently visible tags for `element`
(`self.elements.remove(element)`). -/
def remove {α : Type} [DecidableEq α] (s : ORSet α) (element : α) : ORSet α :=
  ⟨fun y => if y = element then ∅ else s.tags y⟩

/-- `ORSet::contains`: an element is present iff its tag set is nonempty. -/
def contains {α : Type} (s : ORSet α) (element : α) : Prop :=
  (s.tags element).Nonempty

instance {α : Type} (s : ORSet α) (x : α) : Decidable (s.contains x) := by
  unfold contains; infer_instance

/-- `ORSet::merge`: union the tag sets elementwise. -/
def merge {α : Type} (s other : ORSet α) : ORSet α :=
  ⟨fun y => s.tags y ∪ other.tags y⟩

end ORSet

/-- `VectorClock` from `src/types/mod.rs`: a map `PeerId → u64` where a
missing entry reads as `0`, modelled as a total function on peer ids. -/
def VectorClock : Type := Nat → Nat

namespace VectorClock

/-- `VectorClock::new`. -/
def new : VectorClock := fun _ => 0

/-- `VectorClock::get`: `0` for a missing entry. -/
def get (vc : VectorClock) (p : Nat) : Nat := vc p

/-- `VectorClock::increment` (`*counter += 1` wraps at `u64::MAX` in
release builds). -/
def increment (vc : VectorClock) (p : Nat) : VectorClock :=
  fun q => if q = p then (vc q + 1) % u64Mod else vc q

/-- `VectorClock::merge`: componentwise max.  The source iterates the entries
of `other` and maxes them into `self`; entries absent from `other` are
unchanged, which coincides with the pointwise max because absent reads 0. -/
def merge (vc other : VectorClock) : VectorClock :=
  fun p => max (vc p) (other p)

end VectorClock

/-- `HybridLogicalClock` from `src/crdt/hlc.rs`. -/
structure HybridLogicalClock where
  peer_id : Nat
  latest : Timestamp
deriving DecidableEq, Repr

namespace HybridLogicalClock

/-- `HybridLogicalClock::new` (the source samples `SystemTime::now`; `now` is
the sampled value). -/
def new (peer_id : Nat) (now : Nat) : HybridLogicalClock :=
  ⟨peer_id, ⟨now, 0, peer_id⟩⟩

/-- `HybridLogicalClock::tick`: if physical time advanced, use it with
logical 0; otherwise keep the stored physical time and increment the logical
counter (`logical += 1` is wrapping `u64` arithmetic).  Returns the emitted
timestamp and the updated clock. -/
def tick (c : HybridLogicalClock) (now : Nat) :
    Timestamp × HybridLogicalClock :=
  if c.latest.physical < now then
    let t : Timestamp := ⟨now, 0, c.peer_id⟩
    (t, ⟨c.peer_id, t⟩)
  else
    let t : Timestamp :=
      ⟨c.latest.physical, (c.latest.logical + 1) % u64Mod,
        c.latest.peer_id⟩
    (t, ⟨c.peer_id, t⟩)

/-- `HybridLogicalClock::update`: merge a remote timestamp into the clock
and emit a timestamp above both (the `+ 1` bumps are wrapping `u64`
arithmetic). -/
def update (c : HybridLogicalClock) (now : Nat) (remote : Timestamp) :
    Timestamp × HybridLogicalClock :=
  let new_physical := max (max now c.latest.physical) remote.physical
  let new_logical :=
    if max c.latest.physical remote.physical < new_physical then 0
    else if c.latest.physical = remote.physical then
      (max c.latest.logical remote.logical + 1) % u64Mod
    else if remote.physical < c.latest.physical then
      (c.latest.logical + 1) % u64Mod
    else (remote.logical + 1) % u64Mod
  let t : Timestamp := ⟨new_physical, new_logical, c.peer_id⟩
  (t, ⟨c.peer_id, t⟩)

end HybridLogicalClock

/-- `ChannelType` from `src/types/mod.rs`. -/
inductive ChannelType where
  | PeerToPeer : ChannelType
  | Group : ChannelType
deriving DecidableEq, Repr

/-- `Channel` from `src/types/mod.rs`: replicated channel metadata. -/
structure Channel where
  id : Nat
  name : LWWRegister String
  channel_type : ChannelType
  members : ORSet Nat
  created_at : Nat
  hlc : HybridLogicalClock

namespace Channel

/-- `Channel::get_name`. -/
def get_name (c : Channel) : String := c.name.value

/-- `Channel::merge`: merge the name register, union the member set, and
update the embedded HLC with the remote clock's latest timestamp.  The HLC
update samples the wall clock; `now` is the sampled value. -/
def merge (c other : Channel) (now : Nat) : Channel :=
  { c with
    name := c.name.merge other.name
    members := c.members.merge other.members
    hlc := (c.hlc.update now other.hlc.latest).2 }

end Channel

/-- `Message` from `src/types/mod.rs`.  `content` is the opaque text payload;
`created_at` is a millisecond timestamp. -/
structure Message where
  id : Nat
  channel_id : Nat
  author : Nat
  content : String
  vector_clock : VectorClock
  lamport_timestamp : Nat
  parent_hashes : List Nat
  created_at : Nat

/-- `DagError` from `src/dag/mod.rs`. -/
inductive DagError where
  | MissingParent (message_id : Nat) (missing_parent : Nat)
deriving DecidableEq, Repr

/-- `MessageDAG` from `src/dag/mod.rs`.  The `HashMap<MessageId, Message>`
message store is modelled as an association list in arbitrary order (all
order-dependent observations are quantified over permutations); `children`
and `heads` are modelled as total functions in which a missing key reads as
the empty set. -/
structure MessageDAG where
  messages : List Message
  children : Nat → Finset Nat
  heads : Nat → Finset Nat

/-- Pointwise update of a set-valued map (models `HashMap` entry updates). -/
def updSet (f : Nat → Finset Nat) (k : Nat) (v : Finset Nat) :
    Nat → Finset Nat :=
  fun q => if q = k then v else f q

namespace MessageDAG

/-- `MessageDAG::new`. -/
def new : MessageDAG := ⟨[], fun _ => ∅, fun _ => ∅⟩

/-- `self.messages.contains_key(id)`. -/
def hasMessage (dag : MessageDAG) (i : Nat) : Bool :=
  dag.messages.any (fun m => m.id == i)

/-- `HashMap::insert` on the message store: replaces any existing entry with
the same id (entry order within the association list is irrelevant). -/
def storeMessage (l : List Message) (m : Message) : List Message :=
  l.filter (fun x => x.id != m.id) ++ [m]

/-- `MessageDAG::add_message`: fail with `MissingParent` on the first parent
not present; otherwise remove the parents from the channel's heads, register
the child links, add the message as a head, and store it. -/
def add_message (dag : MessageDAG) (m : Message) :
    Except DagError MessageDAG :=
  match m.parent_hashes.find? (fun p => !dag.hasMessage p) with
  | some p => .error (DagError.MissingParent m.id p)
  | none =>
      let heads1 := updSet dag.heads m.channel_id
        (m.parent_hashes.foldl (fun s p => s.erase p) (dag.heads m.channel_id))
      let children1 := m.parent_hashes.foldl
        (fun ch p => updSet ch p (insert m.id (ch p))) dag.children
      let heads2 := updSet heads1 m.channel_id
        (insert m.id (heads1 m.channel_id))
      .ok { messages := storeMessage dag.messages m
            children := children1
            heads := heads2 }

/-- How every caller in the source consumes `add_message`'s result: on
`Err(MissingParent)` the old DAG is kept (the message is not admitted). -/
def applyAdd (dag : MessageDAG) (m : Message) : MessageDAG :=
  match dag.add_message m with
  | .ok d => d
  | .error _ => dag

/-- `MessageDAG::get_heads` (the source collects the set into a `Vec`; the
set itself is the observable). -/
def get_heads (dag : MessageDAG) (channel_id : Nat) : Finset Nat :=
  dag.heads channel_id

/-- `MessageDAG::find_missing_messages`: ids referenced as parents by some
stored message but absent from the store. -/
def find_missing_messages (dag : MessageDAG) : Finset Nat :=
  (dag.messages.flatMap
    (fun m => m.parent_hashes.filter (fun p => !dag.hasMessage p))).toFinset

/-- One iteration of the first pass of `MessageDAG::load_messages`: link the
child to the parents already present, then store it. -/
def loadStep (acc : MessageDAG) (msg : Message) : MessageDAG :=
  { acc with
    children := msg.parent_hashes.foldl
      (fun ch p =>
        if acc.hasMessage p then updSet ch p (insert msg.id (ch p))
        else ch)
      acc.children
    messages := storeMessage acc.messages msg }

/-- The second pass of `MessageDAG::load_messages`: clear `heads` and rebuild
it — a message is a head iff its recorded child set is empty. -/
def rebuildHeads (msgs : List Message) (children : Nat → Finset Nat) :
    Nat → Finset Nat :=
  msgs.foldl
    (fun h m =>
      if children m.id = ∅ then
        updSet h m.channel_id (insert m.id (h m.channel_id))
      else h)
    (fun _ => ∅)

/-- `MessageDAG::load_messages`: sort by `created_at` ascending, insert every
message linking only the parents present at that point, then rebuild `heads`
from scratch.  The source always returns `Ok(())`.  `sort_by_key` is a
stable sort; a stable structural sort (`insertionSort`) is used so that all
concrete states are kernel-computable — any two stable sorts under the same
comparator produce the same list. -/
def load_messages (dag : MessageDAG) (ms : List Message) : MessageDAG :=
  let sorted := List.insertionSort
    (fun a b => a.created_at ≤ b.created_at) ms
  let dag1 := sorted.foldl loadStep dag
  { dag1 with heads := rebuildHeads dag1.messages dag1.children }

end MessageDAG

/-- Lookup of a message by id in the store
(`self.messages.get(&id)`). -/
def dagLookup (msgs : List Message) (i : Nat) : Option Message :=
  msgs.find? (fun m => m.id == i)

/-- The sort key used at every enqueue step of the topological sort:
`(lamport_timestamp, id)`, read through the message store.  The `none`
branch is unreachable on well-formed states (the source unwraps). -/
def msgKey (lookup : Nat → Option Message) (i : Nat) : Nat × Nat :=
  match lookup i with
  | some m => (m.lamport_timestamp, m.id)
  | none => (0, i)

/-- `sort_by(lamport_timestamp.cmp.then(id.cmp))` as a total order on ids. -/
def keyLe (lookup : Nat → Option Message) (a b : Nat) : Prop :=
  (msgKey lookup a).1 < (msgKey lookup b).1 ∨
    ((msgKey lookup a).1 = (msgKey lookup b).1 ∧
      (msgKey lookup a).2 ≤ (msgKey lookup b).2)

instance (lookup : Nat → Option Message) :
    DecidableRel (keyLe lookup) := by
  unfold keyLe DecidableRel; infer_instance

/-- Number of parents of `m` inside the sorted subset
(`in_degree` contribution of one message). -/
def inDegOf (idset : Finset Nat) (m : Message) : Nat :=
  (m.parent_hashes.filter (fun p => decide (p ∈ idset))).length

/-- The `in_degree` map of `topological_sort`: for each id, the number of
parent references (with multiplicity) from the message(s) with that id to
members of the subset.  Modelled as `Int` (see the header on `usize`
wrap-around). -/
def initDeg (msgs : List Message) (idset : Finset Nat) : Nat → Int :=
  fun i => ((((msgs.filter (fun m => m.id == i)).map
    (inDegOf idset)).sum : Nat) : Int)

/-- The `local_children` adjacency map of `topological_sort`: for each
subset member `p`, the child ids in store-iteration order, one occurrence per
parent reference. -/
def childrenMap (msgs : List Message) (idset : Finset Nat) :
    Nat → List Nat :=
  fun p => msgs.flatMap (fun m =>
    (m.parent_hashes.filter (fun q => q == p && decide (q ∈ idset))).map
      (fun _ => m.id))

/-- The inner loop of a dequeue step: decrement the in-degree of each child
occurrence and collect, in iteration order, the children whose degree reaches
exactly zero (`processable`). -/
def decStep : (Nat → Int) → List Nat → (Nat → Int) × List Nat
  | d, [] => (d, [])
  | d, c :: cs =>
      let d1 : Nat → Int := fun q => if q = c then d c - 1 else d q
      let r := decStep d1 cs
      (r.1, if d1 c = 0 then c :: r.2 else r.2)

/-- Kahn's main loop: pop the queue front, append the popped message to the
output, decrement its children, sort the newly processable children by
`(lamport_timestamp, id)` and push them at the back.  `fuel` bounds the
number of iterations (the loop terminates because each iteration pops one
element; the chosen fuel in `topologicalSort` is an upper bound on the total
number of enqueues). -/
def topoGo (lookup : Nat → Option Message) (children : Nat → List Nat) :
    Nat → List Nat → (Nat → Int) → List Message → List Message
  | 0, _, _, acc => acc
  | _ + 1, [], _, acc => acc
  | fuel + 1, i :: qs, d, acc =>
      let acc1 := match lookup i with
        | some m => acc ++ [m]
        | none => acc
      let r := decStep d (children i)
      topoGo lookup children fuel
        (qs ++ List.insertionSort (keyLe lookup) r.2) r.1 acc1

/-- `MessageDAG::topological_sort` on a subset of the stored messages:
build the in-degree and adjacency maps, seed the queue with the in-degree-0
ids sorted by `(lamport_timestamp, id)`, and run Kahn's loop. -/
def topologicalSort (lookup : Nat → Option Message) (msgs : List Message) :
    List Message :=
  if msgs.isEmpty then [] else
  let idset := (msgs.map (fun m => m.id)).toFinset
  let d := initDeg msgs idset
  let q0 := List.insertionSort (keyLe lookup)
    ((msgs.map (fun m => m.id)).filter (fun i => decide (d i = 0)))
  topoGo lookup (childrenMap msgs idset)
    (msgs.length + (msgs.map (fun m => m.parent_hashes.length)).sum + 1)
    q0 d []

namespace MessageDAG

/-- `MessageDAG::get_ordered_messages`: topologically sort the messages of
one channel, looking keys up in the full store. -/
def get_ordered_messages (dag : MessageDAG) (channel_id : Nat) :
    List Message :=
  topologicalSort (dagLookup dag.messages)
    (dag.messages.filter (fun m => m.channel_id == channel_id))

end MessageDAG

/-- The network commands relevant to gossip (`src/network`): requesting
specific messages for a channel. -/
inductive NetworkCommand where
  | RequestMessages (channel_id : Nat) (message_ids : List Nat)
deriving DecidableEq, Repr

/-- `GossipManager::detect_and_request_missing` from `src/dag/gossip.rs`:
emit a `RequestMessages` command when the DAG references absent parents.
The `HashSet` is collected into a `Vec` in arbitrary order; the canonical
ascending order is used here. -/
def detect_and_request_missing (channel_id : Nat) (dag : MessageDAG) :
    List NetworkCommand :=
  let missing := dag.find_missing_messages
  if missing = ∅ then []
  else [NetworkCommand.RequestMessages channel_id (missing.sort (· ≤ ·))]

/-- The `NetworkEvent::MessagesReceived` handler of `App::handle_network_event`
(`src/tui/mod.rs`): on the successful-persistence path, each message of the
batch is offered to the DAG (admission failures keep the old DAG), and no
network command is emitted — in particular `detect_and_request_missing` /
`find_missing_messages` is never invoked by this handler (nor anywhere
else). -/
def handleMessagesReceived (dag : MessageDAG) (channel_id : Nat)
    (messages : List Message) : MessageDAG × List NetworkCommand :=
  (messages.foldl MessageDAG.applyAdd dag, [])

/-- The replication-context clocks of the sync engine (`App` fields
`vector_clock` and `lamport_clock` in `src/tui/mod.rs`). -/
structure SyncClocks where
  vector_clock : VectorClock
  lamport_clock : Nat

/-- The clock discipline of the `NetworkEvent::MessageReceived` handler on
the successful-persistence path (`src/tui/mod.rs`): merge the message's
vector clock, and bump the Lamport clock only when
`message.lamport_timestamp >= self.lamport_clock` (the `+ 1` is wrapping
`u64` arithmetic). -/
def handleInboundClocks (st : SyncClocks) (m : Message) : SyncClocks :=
  { vector_clock := st.vector_clock.merge m.vector_clock
    lamport_clock :=
      if st.lamport_clock ≤ m.lamport_timestamp then
        (m.lamport_timestamp + 1) % u64Mod
      else st.lamport_clock }

/-- One sampled invocation of a hybrid logical clock: a local `tick` or an
`update` with a remote timestamp, each together with the value the wall
clock happened to read. -/
inductive HlcOp where
  | tick (now : Nat)
  | update (now : Nat) (remote : Timestamp)
deriving DecidableEq, Repr

/-- Apply one clock operation. -/
def hlcStep (c : HybridLogicalClock) : HlcOp → Timestamp × HybridLogicalClock
  | .tick now => c.tick now
  | .update now r => c.update now r

/-- The logical component a clock operation feeds into the clock from
outside: the remote timestamp's logical counter for an `update`, nothing
for a `tick`. -/
def HlcOp.remoteLogical : HlcOp → Nat
  | HlcOp.tick _ => 0
  | HlcOp.update _ r => r.logical

/-- The sequence of timestamps a clock emits over a sequence of
operations. -/
def hlcRun (c : HybridLogicalClock) : List HlcOp → List Timestamp
  | [] => []
  | op :: ops =>
      let r := hlcStep c op
      r.1 :: hlcRun r.2 ops

/-- The parents of the (unique) message with id `j` inside `msgs` that lie
in `idset`, in `parent_hashes` order: the references that contribute to the
in-degree of `j` in the channel-restricted sort. -/
def inParents (msgs : List Message) (idset : Finset Nat) (j : Nat) :
    List Nat :=
  match msgs.find? (fun m => m.id == j) with
  | some m => m.parent_hashes.filter (fun p => decide (p ∈ idset))
  | none => []

/-- Direct parenthood inside channel `c`: a stored channel-`c` message with
id `j` lists `i` among its `parent_hashes`, and `i` is the id of a stored
channel-`c` message. -/
def chanParent (dag : MessageDAG) (c : Nat) (i j : Nat) : Prop :=
  ∃ m ∈ dag.messages, m.channel_id = c ∧ m.id = j ∧ i ∈ m.parent_hashes ∧
    ∃ m2 ∈ dag.messages, m2.channel_id = c ∧ m2.id = i

instance (dag : MessageDAG) (c i j : Nat) :
    Decidable (chanParent dag c i j) := by
  unfold chanParent; infer_instance

/-- Ancestry through channel-`c` messages: the transitive closure of
`chanParent`. -/
def chanAncestor (dag : MessageDAG) (c : Nat) : Nat → Nat → Prop :=
  Relation.TransGen (chanParent dag c)

/-- Direct parenthood anywhere in the DAG (no channel restriction). -/
def fullParent (dag : MessageDAG) (i j : Nat) : Prop :=
  ∃ m ∈ dag.messages, m.id = j ∧ i ∈ m.parent_hashes ∧
    ∃ m2 ∈ dag.messages, m2.id = i

instance (dag : MessageDAG) (i j : Nat) :
    Decidable (fullParent dag i j) := by
  unfold fullParent; infer_instance

/-- Reachability via `parent_hashes` over the whole DAG. -/
def isAncestor (dag : MessageDAG) : Nat → Nat → Prop :=
  Relation.TransGen (fullParent dag)

/-- `i` is a sink vertex of the sub-DAG restricted to channel `c`: the id of
a stored channel-`c` message that no stored channel-`c` message lists among
its `parent_hashes`. -/
def isChanSink (dag : MessageDAG) (c i : Nat) : Prop :=
  (∃ m ∈ dag.messages, m.id = i ∧ m.channel_id = c) ∧
  ¬ ∃ m2 ∈ dag.messages, m2.channel_id = c ∧ i ∈ m2.parent_hashes

instance (dag : MessageDAG) (c i : Nat) : Decidable (isChanSink dag c i) := by
  unfold isChanSink; infer_instance

/-- Invariant (I2) of the specification: for every channel, `heads` holds
exactly the sinks of the channel-restricted sub-DAG. -/
def headsInv (dag : MessageDAG) : Prop :=
  ∀ c i, i ∈ dag.heads c ↔ isChanSink dag c i

/-- A sequence of `add_message` admissions, stopping at the first
failure. -/
def addAll (dag : MessageDAG) (ms : List Message) :
    Except DagError MessageDAG :=
  ms.foldlM MessageDAG.add_message dag

/-- A lookup function is coherent when it only returns messages carrying the
looked-up id; `dagLookup` always is. -/
def GoodLookup (lookup : Nat → Option Message) : Prop :=
  ∀ i m, lookup i = some m → m.id = i

/-- `i` occurs strictly before `j` in the list `xs`. -/
def precedes (xs : List Nat) (i j : Nat) : Prop :=
  ∃ a b : Nat, a < b ∧ xs[a]? = some i ∧ xs[b]? = some j

/-! ## Concrete states used as witnesses and counterexamples -/

/-- A register holding `"x"` at timestamp `(0,0,0)`. -/
def regX : LWWRegister String := ⟨"x", ⟨0, 0, 0⟩⟩

/-- A register holding `"y"` at the same timestamp `(0,0,0)`. -/
def regY : LWWRegister String := ⟨"y", ⟨0, 0, 0⟩⟩

/-- A channel named `"alpha"` with name timestamp `(5,0,1)`. -/
def chanAlpha : Channel :=
  ⟨7, ⟨"alpha", ⟨5, 0, 1⟩⟩, ChannelType.Group, ORSet.new Nat, 0,
    ⟨1, ⟨5, 0, 1⟩⟩⟩

/-- A channel with the same id and the same name timestamp `(5,0,1)` but a
different name `"beta"`. -/
def chanBeta : Channel :=
  ⟨7, ⟨"beta", ⟨5, 0, 1⟩⟩, ChannelType.Group, ORSet.new Nat, 0,
    ⟨2, ⟨5, 0, 1⟩⟩⟩

/-- A root message (no parents) on channel 0. -/
def msgRoot : Message := ⟨1, 0, 10, "a", VectorClock.new, 1, [], 100⟩

/-- A message on channel 0 whose only parent is message 1. -/
def msgChild : Message := ⟨2, 0, 10, "b", VectorClock.new, 2, [1], 200⟩

/-- A message on channel 1 whose parent is message 1 of channel 0
(cross-channel parent reference). -/
def msgBridge : Message := ⟨2, 1, 10, "x", VectorClock.new, 6, [1], 200⟩

/-- A message on channel 0 whose parent is the channel-1 message 2, and
whose Lamport timestamp is smaller than its ancestor's. -/
def msgLate : Message := ⟨3, 0, 10, "m2", VectorClock.new, 1, [2], 300⟩

/-- A channel-0 root with Lamport timestamp 5 (larger than `msgLate`'s). -/
def msgEarly : Message := ⟨1, 0, 10, "m1", VectorClock.new, 5, [], 100⟩

/-- The DAG built by admitting `msgEarly`, `msgBridge`, `msgLate` in order
(all three admissions succeed). -/
def dagCross : MessageDAG :=
  ((MessageDAG.new.applyAdd msgEarly).applyAdd msgBridge).applyAdd msgLate

/-- The DAG produced by bulk-loading `msgRoot` (channel 0) and `msgBridge`
(channel 1, parent on channel 0) into an empty DAG. -/
def dagCrossLoad : MessageDAG :=
  MessageDAG.new.load_messages [msgRoot, msgBridge]

/-- The two-message chain admitted through `add_message`. -/
def dagChain2 : MessageDAG :=
  (MessageDAG.new.applyAdd msgRoot).applyAdd msgChild

/-- A sync-engine clock state with Lamport clock 5. -/
def clocksAt5 : SyncClocks := ⟨VectorClock.new, 5⟩

/-- An inbound message carrying Lamport timestamp 3 (smaller than 5). -/
def msgLamport3 : Message := ⟨1, 0, 10, "m", VectorClock.new, 3, [], 100⟩

/-- An HLC with stored timestamp `(5,0,1)`: a remote timestamp with a
saturated `u64` logical counter makes its `update` wrap. -/
def hlcBase : HybridLogicalClock := ⟨1, ⟨5, 0, 1⟩⟩

/-- An HLC whose stored logical counter is one below `u64::MAX` (such a
state is reachable through a single `update` with an adversarial remote, or
by deserialising persisted clock state): its second `tick` wraps. -/
def hlcNearMax : HybridLogicalClock := ⟨1, ⟨5, u64Mod - 2, 1⟩⟩

/-- An HLC whose stored latest timestamp is `(5,5,1)` for peer 1. -/
def hlcPeer1 : HybridLogicalClock := ⟨1, ⟨5, 5, 1⟩⟩

/-- A short operation sequence: a tick under a receding wall clock, then an
update with a remote timestamp from peer 2. -/
def opsPeer1 : List HlcOp := [HlcOp.tick 3, HlcOp.update 4 ⟨7, 9, 2⟩]

/-- An unrelated root message (id 5) used as an inbound batch. -/
def msgOther : Message := ⟨5, 0, 10, "r", VectorClock.new, 1, [], 50⟩

/-- A second child of message 1 (id 3), concurrent with `msgChild`. -/
def msgChild2 : Message := ⟨3, 0, 10, "b2", VectorClock.new, 2, [1], 250⟩

/-- The fork DAG admitted in the order root, child, child2. -/
def dagFork1 : MessageDAG :=
  ((MessageDAG.new.applyAdd msgRoot).applyAdd msgChild).applyAdd msgChild2

/-- The same fork admitted in the order root, child2, child: its message
store is a permutation of `dagFork1`'s. -/
def dagFork2 : MessageDAG :=
  ((MessageDAG.new.applyAdd msgRoot).applyAdd msgChild2).applyAdd msgChild

/-- A DAG recovered from storage holding `msgChild` whose parent (id 1) was
never received: its missing-parent set is `{1}`. -/
def dagGap : MessageDAG := MessageDAG.new.load_messages [msgChild]

/-! ## Theorems: timestamp order and LWW register -/

theorem lww_merge_idem {α : Type} (a : LWWRegister α) : a.merge a = a := by
  unfold LWWRegister.merge
  rw [if_neg (tsLt_irrefl a.timestamp)]

theorem lww_merge_comm {α : Type} (a b : LWWRegister α)
    (h : a.timestamp = b.timestamp → a.value = b.value) :
    a.merge b = b.merge a := by
  unfold LWWRegister.merge
  by_cases h1 : tsLt a.timestamp b.timestamp
  · rw [if_pos h1, if_neg (tsLt_asymm h1)]
  · by_cases h2 : tsLt b.timestamp a.timestamp
    · rw [if_neg h1, if_pos h2]
    · have he := tsEq_of_not_lt h1 h2
      rw [if_neg h1, if_neg h2]
      obtain ⟨va, ta⟩ := a
      obtain ⟨vb, tb⟩ := b
      simp only at he
      simp only [LWWRegister.mk.injEq]
      exact ⟨h he, he⟩

theorem lww_merge_assoc {α : Type} (a b c : LWWRegister α) :
    (a.merge b).merge c = a.merge (b.merge c) := by
  obtain ⟨va, ta⟩ := a
  obtain ⟨vb, tb⟩ := b
  obtain ⟨vc, tc⟩ := c
  obtain ⟨ap, al, ai⟩ := ta
  obtain ⟨bp, bl, bi⟩ := tb
  obtain ⟨cp, cl, ci⟩ := tc
  simp only [LWWRegister.merge]
  split_ifs <;>
    first
      | rfl
      | (exfalso; simp only [tsLt, true_and, and_true] at *; omega)

/-- C6 counterexample: two registers holding different values at the same
timestamp; `merge` is not commutative there (each side keeps its own
value). -/
theorem claim_C6_counterexample : regX.merge regY ≠ regY.merge regX := by
  decide

/-- C6 (amended): `LWWRegister::merge` is idempotent and associative for all
register values, and commutative whenever equal timestamps imply equal
values — in particular whenever the two timestamps differ (equal timestamps
with different values never arise from the HLC-stamped operation history,
since a timestamp carries the emitting peer). -/
theorem claim_C6_lww_merge_laws :
    (∀ (α : Type) (a : LWWRegister α), a.merge a = a) ∧
    (∀ (α : Type) (a b c : LWWRegister α),
      (a.merge b).merge c = a.merge (b.merge c)) ∧
    (∀ (α : Type) (a b : LWWRegister α),
      (a.timestamp = b.timestamp → a.value = b.value) →
        a.merge b = b.merge a) := by
  refine ⟨fun α a => lww_merge_idem a,
    fun α a b c => lww_merge_assoc a b c,
    fun α a b h => lww_merge_comm a b h⟩

/-- C6 witness: the amended laws applied to concrete registers, including a
commutativity instance with distinct timestamps. -/
theorem claim_C6_witness :
    (regX.merge regX = regX) ∧
    ((regX.merge regY).merge regX = regX.merge (regY.merge regX)) ∧
    (regX.merge ⟨"z", ⟨1, 0, 0⟩⟩ = LWWRegister.merge ⟨"z", ⟨1, 0, 0⟩⟩ regX) :=
  ⟨claim_C6_lww_merge_laws.1 String regX,
    claim_C6_lww_merge_laws.2.1 String regX regY regX,
    claim_C6_lww_merge_laws.2.2 String regX ⟨"z", ⟨1, 0, 0⟩⟩
      (by decide)⟩

/-! ## Theorems: OR-set -/

/-- C7: an add whose tag was not observed by the remover survives the
remove: after `A.add(x); B.add(x); A.remove(x); A.merge(B)` the element is
present (for arbitrary starting sets and arbitrary tags). -/
theorem claim_C7_concurrent_add_wins {α : Type} [DecidableEq α]
    (A B : ORSet α) (x : α) (tA tB : Nat) :
    (((A.add x tA).remove x).merge (B.add x tB)).contains x := by
  simp only [ORSet.add, ORSet.remove, ORSet.merge, ORSet.contains,
    if_pos rfl]
  exact Finset.Nonempty.mono Finset.subset_union_right
    (Finset.insert_nonempty tB _)

/-! ## Theorems: channel convergence -/

/-- C1 counterexample: two channels with the same id whose name registers
hold different values at the same timestamp; after mutual merge the two
replicas report different names. -/
theorem claim_C1_counterexample :
    (chanAlpha.merge chanBeta 0).get_name ≠
      (chanBeta.merge chanAlpha 0).get_name := by
  decide

/-- C1 (amended): for channels with the same id whose name registers do not
hold different values at the same timestamp (as is the case for registers
produced by an HLC-stamped operation history), mutual merge converges: both
replicas report the same name and the same member set. -/
theorem claim_C1_mutual_merge_converges (a b : Channel) (n1 n2 : Nat)
    (hid : a.id = b.id)
    (hname : a.name.timestamp = b.name.timestamp → a.name.value = b.name.value) :
    (a.merge b n1).get_name = (b.merge a n2).get_name ∧
    ∀ p : Nat,
      (a.merge b n1).members.contains p ↔ (b.merge a n2).members.contains p := by
  constructor
  · show (a.name.merge b.name).value = (b.name.merge a.name).value
    rw [lww_merge_comm a.name b.name hname]
  · intro p
    show ((a.members.merge b.members).tags p).Nonempty ↔
      ((b.members.merge a.members).tags p).Nonempty
    simp only [ORSet.merge]
    rw [Finset.union_comm]

/-- C1 witness: convergence at two concrete channels with distinct name
timestamps. -/
theorem claim_C1_witness :
    ((chanAlpha.merge ⟨7, ⟨"gamma", ⟨6, 0, 2⟩⟩, ChannelType.Group,
        ORSet.new Nat, 0, ⟨2, ⟨6, 0, 2⟩⟩⟩ 9).get_name =
      ((⟨7, ⟨"gamma", ⟨6, 0, 2⟩⟩, ChannelType.Group, ORSet.new Nat, 0,
        ⟨2, ⟨6, 0, 2⟩⟩⟩ : Channel).merge chanAlpha 11).get_name) ∧
    ∀ p : Nat,
      ((chanAlpha.merge ⟨7, ⟨"gamma", ⟨6, 0, 2⟩⟩, ChannelType.Group,
        ORSet.new Nat, 0, ⟨2, ⟨6, 0, 2⟩⟩⟩ 9).members.contains p ↔
      ((⟨7, ⟨"gamma", ⟨6, 0, 2⟩⟩, ChannelType.Group, ORSet.new Nat, 0,
        ⟨2, ⟨6, 0, 2⟩⟩⟩ : Channel).merge chanAlpha 11).members.contains p) :=
  claim_C1_mutual_merge_converges chanAlpha
    ⟨7, ⟨"gamma", ⟨6, 0, 2⟩⟩, ChannelType.Group, ORSet.new Nat, 0,
      ⟨2, ⟨6, 0, 2⟩⟩⟩ 9 11 (by decide) (by decide)

/-! ## Theorems: sync-engine clock discipline (inbound messages) -/

/-- C8 counterexample: with local Lamport clock 5 and an inbound message
stamped 3, the handler leaves the clock at 5 — it neither becomes
`max(5,3)+1 = 6` nor strictly increases. -/
theorem claim_C8_counterexample :
    (handleInboundClocks clocksAt5 msgLamport3).lamport_clock ≠
      max clocksAt5.lamport_clock msgLamport3.lamport_timestamp + 1 := by
  decide

/-- C8 (amended): on every successfully persisted inbound `ChatMessage m`
whose Lamport timestamp is below `u64::MAX` (so the `u64` bump
`m.lamport_timestamp + 1` does not wrap), the handler merges
`m.vector_clock` into the local vector clock (componentwise max) and sets
the local Lamport clock to `max(lamport_clock, m.lamport_timestamp + 1)` —
so the clock never decreases and always exceeds `m.lamport_timestamp`, but
it does not change when it already exceeds the message's timestamp.  At a
saturated timestamp `u64::MAX` the bump wraps to 0 instead. -/
theorem claim_C8_inbound_clocks (st : SyncClocks) (m : Message)
    (hw : m.lamport_timestamp + 1 < u64Mod) :
    (handleInboundClocks st m).lamport_clock =
      max st.lamport_clock (m.lamport_timestamp + 1) ∧
    ∀ p : Nat,
      (handleInboundClocks st m).vector_clock p =
        max (st.vector_clock p) (m.vector_clock p) := by
  constructor
  · show (if st.lamport_clock ≤ m.lamport_timestamp then
        (m.lamport_timestamp + 1) % u64Mod else st.lamport_clock) = _
    rw [Nat.mod_eq_of_lt hw]
    split_ifs with h <;> omega
  · intro p
    rfl

/-- C8 witness: the amended theorem at local clock 5 and an inbound
message stamped 3 (well below `u64::MAX`). -/
theorem claim_C8_witness :
    (handleInboundClocks clocksAt5 msgLamport3).lamport_clock =
      max clocksAt5.lamport_clock (msgLamport3.lamport_timestamp + 1) ∧
    (handleInboundClocks clocksAt5 msgLamport3).vector_clock 0 =
      max (clocksAt5.vector_clock 0) (msgLamport3.vector_clock 0) :=
  ⟨(claim_C8_inbound_clocks clocksAt5 msgLamport3 (by decide)).1,
    (claim_C8_inbound_clocks clocksAt5 msgLamport3 (by decide)).2 0⟩

/-! ## Theorems: hybrid logical clock -/

theorem tick_latest_eq (c : HybridLogicalClock) (now : Nat) :
    (c.tick now).2.latest = (c.tick now).1 := by
  unfold HybridLogicalClock.tick
  split_ifs <;> rfl

/-- `tick` strictly increases the stored timestamp as long as the stored
logical counter is not saturated (the `u64` increment does not wrap). -/
theorem tick_lt (c : HybridLogicalClock) (now : Nat)
    (h : c.latest.logical + 1 < u64Mod) :
    tsLt c.latest (c.tick now).1 := by
  unfold HybridLogicalClock.tick
  split_ifs with h2
  · exact Or.inl h2
  · refine Or.inr ⟨rfl, Or.inl ?_⟩
    show c.latest.logical < (c.latest.logical + 1) % u64Mod
    rw [Nat.mod_eq_of_lt h]
    omega

theorem update_latest_eq (c : HybridLogicalClock) (now : Nat)
    (r : Timestamp) : (c.update now r).2.latest = (c.update now r).1 := rfl

/-- `update` strictly increases the stored timestamp as long as neither the
stored nor the remote logical counter is saturated. -/
theorem update_lt_latest (c : HybridLogicalClock) (now : Nat)
    (r : Timestamp) (h1 : c.latest.logical + 1 < u64Mod)
    (h2 : r.logical + 1 < u64Mod) : tsLt c.latest (c.update now r).1 := by
  obtain ⟨pid, lp, ll, li⟩ := c
  obtain ⟨rp, rl, ri⟩ := r
  simp only [HybridLogicalClock.update, tsLt, u64Mod] at *
  split_ifs <;> simp_all <;> omega

/-- `update` emits a timestamp strictly above the consumed remote as long
as neither logical counter is saturated. -/
theorem update_lt_remote (c : HybridLogicalClock) (now : Nat)
    (r : Timestamp) (h1 : c.latest.logical + 1 < u64Mod)
    (h2 : r.logical + 1 < u64Mod) : tsLt r (c.update now r).1 := by
  obtain ⟨pid, lp, ll, li⟩ := c
  obtain ⟨rp, rl, ri⟩ := r
  simp only [HybridLogicalClock.update, tsLt, u64Mod] at *
  split_ifs <;> simp_all <;> omega

theorem hlcStep_latest_eq (c : HybridLogicalClock) (op : HlcOp) :
    (hlcStep c op).2.latest = (hlcStep c op).1 := by
  cases op with
  | tick now => exact tick_latest_eq c now
  | update now r => exact update_latest_eq c now r

theorem hlcStep_lt (c : HybridLogicalClock) (op : HlcOp)
    (h1 : c.latest.logical + 1 < u64Mod)
    (h2 : op.remoteLogical + 1 < u64Mod) :
    tsLt c.latest (hlcStep c op).1 := by
  cases op with
  | tick now => exact tick_lt c now h1
  | update now r =>
      exact update_lt_latest c now r h1
        (by simpa [HlcOp.remoteLogical] using h2)

/-- One step grows the stored logical counter by at most one past the
larger of the stored and incoming logical counters (wrapping can only
shrink it further). -/
theorem hlcStep_logical_le (c : HybridLogicalClock) (op : HlcOp) :
    (hlcStep c op).2.latest.logical ≤
      max c.latest.logical op.remoteLogical + 1 := by
  cases op with
  | tick now =>
      simp only [hlcStep, HybridLogicalClock.tick]
      split_ifs
      · simp [HlcOp.remoteLogical]
      · have hm := Nat.mod_le (c.latest.logical + 1) u64Mod
        simp only [HlcOp.remoteLogical]
        omega
  | update now r =>
      simp only [hlcStep, HybridLogicalClock.update]
      have hm1 := Nat.mod_le (max c.latest.logical r.logical + 1) u64Mod
      have hm2 := Nat.mod_le (c.latest.logical + 1) u64Mod
      have hm3 := Nat.mod_le (r.logical + 1) u64Mod
      simp only [HlcOp.remoteLogical]
      split_ifs <;> omega

/-- Main run invariant: if some bound `B` dominates the stored logical
counter and every remote logical counter fed into the run, and `B` plus the
number of operations stays below `2^64`, then no increment wraps: every
emitted timestamp exceeds the starting stored timestamp, the emissions are
pairwise strictly increasing, and each `update` emits strictly above its
remote. -/
theorem hlcRun_mono : ∀ (ops : List HlcOp) (c : HybridLogicalClock)
    (B : Nat), c.latest.logical ≤ B →
    (∀ op ∈ ops, op.remoteLogical ≤ B) →
    B + ops.length < u64Mod →
    (∀ t ∈ hlcRun c ops, tsLt c.latest t) ∧
    List.Pairwise tsLt (hlcRun c ops) ∧
    (∀ (k now : Nat) (r : Timestamp),
      ops[k]? = some (HlcOp.update now r) →
      ∃ t, (hlcRun c ops)[k]? = some t ∧ tsLt r t) := by
  intro ops
  induction ops with
  | nil =>
      intro c B hB hops hlen
      refine ⟨?_, List.Pairwise.nil, ?_⟩
      · intro t ht; cases ht
      · intro k now r h; simp at h
  | cons op ops ih =>
      intro c B hB hops hlen
      simp only [List.length_cons] at hlen
      have hopB : op.remoteLogical ≤ B := hops op (List.mem_cons_self op ops)
      have hc1 : c.latest.logical + 1 < u64Mod := by omega
      have hop1 : op.remoteLogical + 1 < u64Mod := by omega
      have hstep := hlcStep_lt c op hc1 hop1
      have hlatest := hlcStep_latest_eq c op
      have hbound2 : (hlcStep c op).2.latest.logical ≤ B + 1 := by
        have h := hlcStep_logical_le c op
        omega
      obtain ⟨ih1, ih2, ih3⟩ := ih (hlcStep c op).2 (B + 1) hbound2
        (fun o ho => le_trans (hops o (List.mem_cons_of_mem op ho))
          (Nat.le_succ B))
        (by omega)
      rw [hlcRun]
      refine ⟨?_, ?_, ?_⟩
      · intro t ht
        rcases List.mem_cons.mp ht with h1 | h1
        · subst h1; exact hstep
        · have h2 := ih1 t h1
          rw [hlatest] at h2
          exact tsLt_trans hstep h2
      · refine List.pairwise_cons.mpr ⟨?_, ih2⟩
        intro t ht
        have h2 := ih1 t ht
        rw [hlatest] at h2
        exact h2
      · intro k now r h
        cases k with
        | zero =>
            simp only [List.getElem?_cons_zero, Option.some.injEq] at h
            subst h
            refine ⟨(hlcStep c (HlcOp.update now r)).1,
              List.getElem?_cons_zero, ?_⟩
            refine update_lt_remote c now r hc1 ?_
            simpa [HlcOp.remoteLogical] using hop1
        | succ k =>
            simp only [List.getElem?_cons_succ] at h
            obtain ⟨t, ht, hlt⟩ := ih3 k now r h
            refine ⟨t, ?_, hlt⟩
            rw [List.getElem?_cons_succ]
            exact ht

/-- C5 (amended): for every hybrid logical clock state and every sequence
of sampled operations (arbitrary wall-clock readings, including a clock
that runs backwards), as long as the `u64` logical counters involved never
saturate — some bound `B` with `B + ops.length < 2^64` dominates the stored
logical counter and every remote logical counter — the emitted timestamps
strictly increase in emission order, and every `update(r)` emits a
timestamp strictly greater than `r` (and, by the pairwise part, strictly
greater than everything previously emitted).  Without the bound the claim
is false: the source's `logical + 1` bumps are wrapping `u64` arithmetic,
so a saturated counter wraps to 0 (see the counterexample). -/
theorem claim_C5_hlc_monotone (c : HybridLogicalClock) (ops : List HlcOp)
    (B : Nat) (hinit : c.latest.logical ≤ B)
    (hrem : ∀ op ∈ ops, op.remoteLogical ≤ B)
    (hbound : B + ops.length < u64Mod) :
    List.Pairwise tsLt (hlcRun c ops) ∧
    (∀ (k now : Nat) (r : Timestamp),
      ops[k]? = some (HlcOp.update now r) →
      ∃ t, (hlcRun c ops)[k]? = some t ∧ tsLt r t) :=
  ⟨(hlcRun_mono ops c B hinit hrem hbound).2.1,
    (hlcRun_mono ops c B hinit hrem hbound).2.2⟩

/-- C5 counterexample: the claim fails at saturated `u64` logical counters.
`update` on a remote stamped `(5, 2^64 - 1)` wraps the logical bump to 0
and emits `(5, 0)`, not above the remote; and a clock whose stored logical
counter is `2^64 - 2` emits `(5, 2^64 - 1)` then wraps to `(5, 0)` on two
successive ticks with a stalled wall clock, so successive tick outputs do
not strictly increase. -/
theorem claim_C5_counterexample :
    (¬ tsLt (⟨5, u64Mod - 1, 2⟩ : Timestamp)
      ((hlcBase.update 0 ⟨5, u64Mod - 1, 2⟩).1)) ∧
    ¬ tsLt ((hlcNearMax.tick 0).1) (((hlcNearMax.tick 0).2.tick 0).1) := by
  decide

/-- C5 witness: a concrete run with a receding wall clock, under the bound
`B = 9`; the emitted timestamps are `(5,6,1)` then `(7,10,1)`, strictly
increasing and above the remote `(7,9,2)`. -/
theorem claim_C5_witness :
    List.Pairwise tsLt (hlcRun hlcPeer1 opsPeer1) ∧
    (∃ t, (hlcRun hlcPeer1 opsPeer1)[1]? = some t ∧
      tsLt (⟨7, 9, 2⟩ : Timestamp) t) :=
  ⟨(claim_C5_hlc_monotone hlcPeer1 opsPeer1 9 (by decide) (by decide)
      (by decide)).1,
    (claim_C5_hlc_monotone hlcPeer1 opsPeer1 9 (by decide) (by decide)
      (by decide)).2 1 4 ⟨7, 9, 2⟩ (by decide)⟩

/-- C10: a hybrid logical clock whose stored latest timestamp carries its
own peer id (as `new` establishes) only ever emits and stores timestamps
carrying its own peer id — `tick` preserves the property and `update`
stamps the local peer unconditionally; consequently after `Channel::merge`
the merged channel's HLC latest timestamp is attributed to the local peer,
whatever the remote timestamp's peer component was. -/
theorem claim_C10_hlc_peer_attribution :
    (∀ (c : HybridLogicalClock) (now : Nat),
      c.latest.peer_id = c.peer_id →
      ((c.tick now).1.peer_id = c.peer_id ∧
        (c.tick now).2.peer_id = c.peer_id ∧
        (c.tick now).2.latest.peer_id = c.peer_id)) ∧
    (∀ (c : HybridLogicalClock) (now : Nat) (r : Timestamp),
      (c.update now r).1.peer_id = c.peer_id ∧
      (c.update now r).2.peer_id = c.peer_id ∧
      (c.update now r).2.latest.peer_id = c.peer_id) ∧
    (∀ (a b : Channel) (now : Nat),
      (a.merge b now).hlc.latest.peer_id = a.hlc.peer_id) := by
  refine ⟨?_, ?_, ?_⟩
  · intro c now h
    unfold HybridLogicalClock.tick
    split_ifs <;> exact ⟨h ▸ rfl, rfl, h ▸ rfl⟩
  · intro c now r
    exact ⟨rfl, rfl, rfl⟩
  · intro a b now
    rfl

/-- C10 witness: the tick part applied at a concrete clock satisfying the
stored-peer hypothesis. -/
theorem claim_C10_witness :
    (hlcPeer1.tick 3).1.peer_id = hlcPeer1.peer_id ∧
    (hlcPeer1.tick 3).2.peer_id = hlcPeer1.peer_id ∧
    (hlcPeer1.tick 3).2.latest.peer_id = hlcPeer1.peer_id :=
  claim_C10_hlc_peer_attribution.1 hlcPeer1 3 (by decide)

/-! ## Theorems: DAG admission -/

/-- C2: if some parent of `m` is absent from the DAG, `add_message` fails
with `MissingParent` naming `m.id` and a missing parent (the first missing
one in `parent_hashes` order), the message is not stored, and the DAG state
is left entirely unchanged. -/
theorem claim_C2_missing_parent_rejection (dag : MessageDAG) (m : Message)
    (h : ∃ p ∈ m.parent_hashes, dag.hasMessage p = false) :
    ∃ p ∈ m.parent_hashes, dag.hasMessage p = false ∧
      dag.add_message m = .error (DagError.MissingParent m.id p) ∧
      dag.applyAdd m = dag := by
  have hex : ∃ x ∈ m.parent_hashes, (!dag.hasMessage x) = true := by
    obtain ⟨p, hp, hf⟩ := h
    exact ⟨p, hp, by simp [hf]⟩
  have hsome : (m.parent_hashes.find? (fun p => !dag.hasMessage p)).isSome :=
    List.find?_isSome.mpr hex
  obtain ⟨q, hq⟩ := Option.isSome_iff_exists.mp hsome
  have hqmem : q ∈ m.parent_hashes := List.mem_of_find?_eq_some hq
  have hqfalse : dag.hasMessage q = false := by
    have h1 := List.find?_some hq
    simpa using h1
  refine ⟨q, hqmem, hqfalse, ?_, ?_⟩
  · unfold MessageDAG.add_message
    rw [hq]
  · unfold MessageDAG.applyAdd MessageDAG.add_message
    rw [hq]

/-- C2 witness: admitting a message with absent parent 1 into the empty DAG
fails with `MissingParent { message_id: 2, missing_parent: 1 }` and leaves
the DAG unchanged. -/
theorem claim_C2_witness :
    ∃ p ∈ msgChild.parent_hashes, MessageDAG.new.hasMessage p = false ∧
      MessageDAG.new.add_message msgChild =
        .error (DagError.MissingParent msgChild.id p) ∧
      MessageDAG.new.applyAdd msgChild = MessageDAG.new :=
  claim_C2_missing_parent_rejection MessageDAG.new msgChild
    ⟨1, by decide, by decide⟩

/-! ## Theorems: the MessageResponse handler never requests missing
ancestors -/

/-- C9 (code behaviour at the failing input): the `MessagesReceived`
handler emits no network command on any input — `find_missing_messages` /
`detect_and_request_missing` is never invoked anywhere in the source — even
though, on a DAG recovered with an unadmitted orphan (`dagGap`), the
missing-ancestor set is `{1}` and the gap-detection helper would have
emitted `MessageRequest(0, [1])` exactly as the claim demands. -/
theorem claim_C9_no_backfill_request :
    (∀ (dag : MessageDAG) (cid : Nat) (ms : List Message),
      (handleMessagesReceived dag cid ms).2 = []) ∧
    dagGap.find_missing_messages = {1} ∧
    (handleMessagesReceived dagGap 0 [msgOther]).2 = [] ∧
    detect_and_request_missing 0 (handleMessagesReceived dagGap 0 [msgOther]).1 =
      [NetworkCommand.RequestMessages 0 [1]] := by
  have h1 : (handleMessagesReceived dagGap 0 [msgOther]).1.find_missing_messages
      = {1} := by decide
  refine ⟨fun dag cid ms => rfl, by decide, rfl, ?_⟩
  unfold detect_and_request_missing
  rw [h1]
  norm_num [Finset.sort_singleton]

/-! ## Theorems: the topological sort — order and sorting infrastructure -/

theorem goodLookup_dagLookup (msgs : List Message) :
    GoodLookup (dagLookup msgs) := by
  intro i m h
  have h1 := List.find?_some h
  simpa using h1

theorem msgKey_snd {lookup : Nat → Option Message} (hg : GoodLookup lookup)
    (i : Nat) : (msgKey lookup i).2 = i := by
  unfold msgKey
  cases h : lookup i with
  | none => rfl
  | some m => exact hg i m h

theorem keyLe_total (lookup : Nat → Option Message) (a b : Nat) :
    keyLe lookup a b ∨ keyLe lookup b a := by
  unfold keyLe
  omega

theorem keyLe_trans {lookup : Nat → Option Message} {a b c : Nat}
    (h1 : keyLe lookup a b) (h2 : keyLe lookup b c) : keyLe lookup a c := by
  unfold keyLe at *
  omega

theorem keyLe_antisymm {lookup : Nat → Option Message}
    (hg : GoodLookup lookup) {a b : Nat}
    (h1 : keyLe lookup a b) (h2 : keyLe lookup b a) : a = b := by
  unfold keyLe at *
  have ha := msgKey_snd hg a
  have hb := msgKey_snd hg b
  omega

/-- Sorting by `(lamport_timestamp, id)` is canonical: permuted inputs sort
to the same list. -/
theorem insertionSort_keyLe_eq {lookup : Nat → Option Message}
    (hg : GoodLookup lookup) {l1 l2 : List Nat} (hp : l1.Perm l2) :
    List.insertionSort (keyLe lookup) l1 =
      List.insertionSort (keyLe lookup) l2 := by
  haveI : IsTotal Nat (keyLe lookup) := ⟨keyLe_total lookup⟩
  haveI : IsTrans Nat (keyLe lookup) := ⟨fun a b c => keyLe_trans⟩
  haveI ha : IsAntisymm Nat (keyLe lookup) := ⟨fun a b => keyLe_antisymm hg⟩
  refine @List.eq_of_perm_of_sorted Nat (keyLe lookup) ha _ _ ?_ ?_ ?_
  · exact ((List.perm_insertionSort _ l1).trans hp).trans
      (List.perm_insertionSort _ l2).symm
  · exact List.sorted_insertionSort _ l1
  · exact List.sorted_insertionSort _ l2

/-! ## Theorems: the decrement loop of a dequeue step -/

theorem decStep_cons (d : Nat → Int) (c : Nat) (cs : List Nat) :
    decStep d (c :: cs) =
      ((decStep (fun q => if q = c then d c - 1 else d q) cs).1,
       if d c - 1 = 0 then
         c :: (decStep (fun q => if q = c then d c - 1 else d q) cs).2
       else (decStep (fun q => if q = c then d c - 1 else d q) cs).2) := by
  rw [decStep]
  simp

theorem decStep_fst : ∀ (l : List Nat) (d : Nat → Int),
    (decStep d l).1 = fun x => d x - l.count x := by
  intro l
  induction l with
  | nil =>
      intro d
      funext x
      simp [decStep]
  | cons c cs ih =>
      intro d
      funext x
      rw [decStep_cons]
      simp only
      rw [ih]
      by_cases hx : x = c
      · subst hx
        simp [List.count_cons]
        omega
      · simp only [if_neg hx, List.count_cons]
        have hne : ¬ (c == x) = true := by simp [Ne.symm hx]
        simp [hne]

theorem decStep_mem : ∀ (l : List Nat) (d : Nat → Int) (x : Nat),
    x ∈ (decStep d l).2 ↔ (1 ≤ d x ∧ d x ≤ (l.count x : Int)) := by
  intro l
  induction l with
  | nil =>
      intro d x
      simp [decStep]
      omega
  | cons c cs ih =>
      intro d x
      rw [decStep_cons]
      simp only
      have hcount : ((c :: cs).count x : Int) =
          (cs.count x : Int) + (if c = x then 1 else 0) := by
        rw [List.count_cons]
        by_cases h : c = x
        · simp [h]
        · have hne : ¬ (c == x) = true := by simp [h]
          simp [hne, h]
      by_cases hx : x = c
      · subst hx
        rw [hcount]
        simp only [if_pos rfl, if_true]
        by_cases h0 : d x - 1 = 0
        · rw [if_pos h0]
          simp only [List.mem_cons, true_or, true_iff]
          omega
        · rw [if_neg h0]
          rw [ih]
          simp only [if_pos rfl, if_true]
          omega
      · rw [hcount]
        have hcx : ¬ c = x := Ne.symm hx
        rw [if_neg hcx]
        by_cases h0 : d c - 1 = 0
        · rw [if_pos h0]
          rw [List.mem_cons]
          rw [ih]
          simp only [if_neg hx]
          constructor
          · rintro (h | h)
            · exact absurd h hx
            · omega
          · intro h
            right
            omega
        · rw [if_neg h0]
          rw [ih]
          simp only [if_neg hx]
          omega

theorem decStep_nodup : ∀ (l : List Nat) (d : Nat → Int),
    (decStep d l).2.Nodup := by
  intro l
  induction l with
  | nil => intro d; simp [decStep]
  | cons c cs ih =>
      intro d
      rw [decStep_cons]
      simp only
      by_cases h0 : d c - 1 = 0
      · rw [if_pos h0]
        refine List.nodup_cons.mpr ⟨?_, ih _⟩
        rw [decStep_mem]
        simp only [if_pos rfl, if_true]
        omega
      · rw [if_neg h0]
        exact ih _

theorem decStep_perm {l1 l2 : List Nat} (hp : l1.Perm l2) (d : Nat → Int) :
    (decStep d l1).1 = (decStep d l2).1 ∧
      (decStep d l1).2.Perm (decStep d l2).2 := by
  constructor
  · rw [decStep_fst, decStep_fst]
    funext x
    rw [hp.count_eq]
  · refine (List.perm_ext_iff_of_nodup (decStep_nodup l1 d)
      (decStep_nodup l2 d)).mpr ?_
    intro x
    rw [decStep_mem, decStep_mem, hp.count_eq]

/-! ## Theorems: determinism of the topological sort -/

theorem topoGo_children_perm {lookup : Nat → Option Message}
    (hg : GoodLookup lookup) {c1 c2 : Nat → List Nat}
    (hc : ∀ p, (c1 p).Perm (c2 p)) :
    ∀ (fuel : Nat) (q : List Nat) (d : Nat → Int) (acc : List Message),
    topoGo lookup c1 fuel q d acc = topoGo lookup c2 fuel q d acc := by
  intro fuel
  induction fuel with
  | zero => intro q d acc; rfl
  | succ fuel ih =>
      intro q d acc
      cases q with
      | nil => rfl
      | cons i qs =>
          rw [topoGo, topoGo]
          obtain ⟨h1, h2⟩ := decStep_perm (hc i) d
          rw [h1, insertionSort_keyLe_eq hg h2]
          exact ih _ _ _

theorem initDeg_perm {msgs1 msgs2 : List Message} (hp : msgs1.Perm msgs2)
    (idset : Finset Nat) : initDeg msgs1 idset = initDeg msgs2 idset := by
  funext i
  unfold initDeg
  congr 1
  exact List.Perm.sum_eq (List.Perm.map _ (hp.filter _))

theorem childrenMap_perm {msgs1 msgs2 : List Message} (hp : msgs1.Perm msgs2)
    (idset : Finset Nat) (p : Nat) :
    (childrenMap msgs1 idset p).Perm (childrenMap msgs2 idset p) :=
  List.Perm.flatMap_right _ hp

/-- Under unique ids, lookup finds exactly the stored message with that
id. -/
theorem dagLookup_eq_some {msgs : List Message}
    (hn : (msgs.map (fun m => m.id)).Nodup) {m : Message} {i : Nat}
    (hm : m ∈ msgs) (hi : m.id = i) : dagLookup msgs i = some m := by
  cases h : dagLookup msgs i with
  | none =>
      exfalso
      have h1 := List.find?_eq_none.mp h m hm
      simp [hi] at h1
  | some m2 =>
      have h2 : m2 ∈ msgs := List.mem_of_find?_eq_some h
      have h3 : m2.id = i := by
        have h4 := List.find?_some h
        simpa using h4
      have h5 : m2 = m :=
        List.inj_on_of_nodup_map hn h2 hm (by rw [h3, hi])
      rw [h5]

theorem dagLookup_perm {msgs1 msgs2 : List Message} (hp : msgs1.Perm msgs2)
    (hn : (msgs1.map (fun m => m.id)).Nodup) :
    dagLookup msgs1 = dagLookup msgs2 := by
  have hn2 : (msgs2.map (fun m => m.id)).Nodup := (hp.map _).nodup hn
  funext i
  cases h : dagLookup msgs1 i with
  | none =>
      symm
      rw [dagLookup, List.find?_eq_none]
      intro m hm
      exact List.find?_eq_none.mp h m (hp.mem_iff.mpr hm)
  | some m =>
      have h2 : m ∈ msgs1 := List.mem_of_find?_eq_some h
      have h3 : m.id = i := by
        have h4 := List.find?_some h
        simpa using h4
      exact (dagLookup_eq_some hn2 (hp.mem_iff.mp h2) h3).symm

theorem topologicalSort_perm {lookup : Nat → Option Message}
    (hg : GoodLookup lookup) {l1 l2 : List Message} (hp : l1.Perm l2) :
    topologicalSort lookup l1 = topologicalSort lookup l2 := by
  unfold topologicalSort
  have hidm : (l1.map (fun m => m.id)).Perm (l2.map (fun m => m.id)) :=
    hp.map _
  have hids : (l1.map (fun m => m.id)).toFinset =
      (l2.map (fun m => m.id)).toFinset :=
    List.toFinset_eq_of_perm _ _ hidm
  have hempty : l1.isEmpty = l2.isEmpty := by
    rcases l1 with _ | ⟨m, l1⟩
    · have := hp.length_eq
      rcases l2 with _ | ⟨m2, l2⟩
      · rfl
      · simp at this
    · have := hp.length_eq
      rcases l2 with _ | ⟨m2, l2⟩
      · simp at this
      · rfl
  rw [hempty]
  by_cases he : l2.isEmpty = true
  · rw [if_pos he, if_pos he]
  · rw [if_neg he, if_neg he]
    have hsum : (l1.map (fun m => m.parent_hashes.length)).sum =
        (l2.map (fun m => m.parent_hashes.length)).sum :=
      List.Perm.sum_eq (hp.map _)
    simp only [hids, initDeg_perm hp, hp.length_eq, hsum]
    rw [insertionSort_keyLe_eq hg (hidm.filter _)]
    exact topoGo_children_perm hg
      (fun p => childrenMap_perm hp ((l2.map (fun m => m.id)).toFinset) p)
      _ _ _ _

/-- Determinism half of C3: two DAGs storing the same set of messages
(association lists that are permutations of one another, unique ids) order
every channel identically. -/
theorem get_ordered_messages_deterministic (dag1 dag2 : MessageDAG)
    (c : Nat) (hn : (dag1.messages.map (fun m => m.id)).Nodup)
    (hp : dag1.messages.Perm dag2.messages) :
    dag1.get_ordered_messages c = dag2.get_ordered_messages c := by
  unfold MessageDAG.get_ordered_messages
  rw [dagLookup_perm hp hn]
  exact topologicalSort_perm (goodLookup_dagLookup _) (hp.filter _)

/-! ## Theorems: causal soundness of the topological sort -/

theorem initDeg_zero_of_not_mem {msgs : List Message} {j : Nat}
    (h : j ∉ msgs.map (fun m => m.id)) (idset : Finset Nat) :
    initDeg msgs idset j = 0 := by
  unfold initDeg
  have hnil : msgs.filter (fun m => m.id == j) = [] := by
    rw [List.filter_eq_nil_iff]
    intro m hm
    simp only [beq_iff_eq]
    intro hid
    exact h (List.mem_map.mpr ⟨m, hm, hid⟩)
  rw [hnil]
  rfl

theorem inParents_nil_of_not_mem {msgs : List Message} {j : Nat}
    (h : j ∉ msgs.map (fun m => m.id)) (idset : Finset Nat) :
    inParents msgs idset j = [] := by
  unfold inParents
  have hnone : msgs.find? (fun m => m.id == j) = none := by
    rw [List.find?_eq_none]
    intro m hm
    simp only [beq_iff_eq]
    intro hid
    exact h (List.mem_map.mpr ⟨m, hm, hid⟩)
  rw [hnone]

theorem initDeg_eq_inParents {msgs : List Message}
    (hn : (msgs.map (fun m => m.id)).Nodup) (idset : Finset Nat) (j : Nat) :
    initDeg msgs idset j = ((inParents msgs idset j).length : Int) := by
  induction msgs with
  | nil => rfl
  | cons m rest ih =>
      rw [List.map_cons, List.nodup_cons] at hn
      obtain ⟨hm, hrest⟩ := hn
      by_cases hj : m.id = j
      · have h0 : initDeg rest idset j = 0 :=
          initDeg_zero_of_not_mem (hj ▸ hm) idset
        have h1 : inParents (m :: rest) idset j =
            m.parent_hashes.filter (fun p => decide (p ∈ idset)) := by
          unfold inParents
          rw [List.find?_cons_of_pos _ (by simpa using hj)]
        have h2 : initDeg (m :: rest) idset j =
            (inDegOf idset m : Int) + initDeg rest idset j := by
          unfold initDeg
          rw [List.filter_cons_of_pos (by simpa using hj)]
          simp only [List.map_cons, List.sum_cons]
          push_cast
          ring
        rw [h2, h0, h1]
        unfold inDegOf
        ring
      · have h1 : inParents (m :: rest) idset j = inParents rest idset j := by
          unfold inParents
          rw [List.find?_cons_of_neg _ (by simpa using hj)]
        have h2 : initDeg (m :: rest) idset j = initDeg rest idset j := by
          unfold initDeg
          rw [List.filter_cons_of_neg (by simpa using hj)]
        rw [h1, h2]
        exact ih hrest

theorem mem_ids_of_mem_childrenMap {msgs : List Message} {idset : Finset Nat}
    {p x : Nat} (h : x ∈ childrenMap msgs idset p) :
    x ∈ msgs.map (fun m => m.id) := by
  unfold childrenMap at h
  obtain ⟨m, hm, hx⟩ := List.mem_flatMap.mp h
  obtain ⟨q, _, hq⟩ := List.mem_map.mp hx
  exact List.mem_map.mpr ⟨m, hm, hq⟩

theorem count_childrenMap_zero_of_not_mem {msgs : List Message}
    {idset : Finset Nat} {p j : Nat}
    (h : j ∉ msgs.map (fun m => m.id)) :
    (childrenMap msgs idset p).count j = 0 := by
  rw [List.count_eq_zero]
  intro hmem
  exact h (mem_ids_of_mem_childrenMap hmem)

theorem count_childrenMap {msgs : List Message}
    (hn : (msgs.map (fun m => m.id)).Nodup) (idset : Finset Nat)
    (p j : Nat) :
    (childrenMap msgs idset p).count j = (inParents msgs idset j).count p := by
  induction msgs with
  | nil => rfl
  | cons m rest ih =>
      rw [List.map_cons, List.nodup_cons] at hn
      obtain ⟨hm, hrest⟩ := hn
      have hsplit : childrenMap (m :: rest) idset p =
          ((m.parent_hashes.filter
            (fun q => q == p && decide (q ∈ idset))).map (fun _ => m.id)) ++
            childrenMap rest idset p := by
        unfold childrenMap
        rw [List.flatMap_cons]
      rw [hsplit, List.count_append]
      rw [List.map_const', List.count_replicate]
      by_cases hj : m.id = j
      · have h0 : (childrenMap rest idset p).count j = 0 :=
          count_childrenMap_zero_of_not_mem (hj ▸ hm)
        have h1 : inParents (m :: rest) idset j =
            m.parent_hashes.filter (fun q => decide (q ∈ idset)) := by
          unfold inParents
          rw [List.find?_cons_of_pos _ (by simpa using hj)]
        rw [h0, h1, if_pos (by simpa using hj)]
        rw [List.count_eq_countP, List.countP_filter,
          ← List.countP_eq_length_filter]
        omega
      · have h1 : inParents (m :: rest) idset j = inParents rest idset j := by
          unfold inParents
          rw [List.find?_cons_of_neg _ (by simpa using hj)]
        rw [h1, if_neg (by simpa using hj)]
        simpa using ih hrest

theorem nodup_getElem?_inj {l : List Nat} (h : l.Nodup) {a b i : Nat}
    (ha : l[a]? = some i) (hb : l[b]? = some i) : a = b := by
  obtain ⟨hal, hae⟩ := List.getElem?_eq_some_iff.mp ha
  obtain ⟨hbl, hbe⟩ := List.getElem?_eq_some_iff.mp hb
  by_contra hne
  exact (List.Nodup.getElem_inj_iff h).not.mpr hne (hae.trans hbe.symm) |>.elim

theorem length_filter_mem_append {popped : List Nat} {i : Nat}
    (hi : i ∉ popped) (l : List Nat) :
    (l.filter (fun p => decide (p ∈ popped ++ [i]))).length =
      (l.filter (fun p => decide (p ∈ popped))).length + l.count i := by
  induction l with
  | nil => rfl
  | cons e l ih =>
      rw [List.count_cons]
      by_cases hei : e = i
      · subst hei
        have h1 : e ∈ popped ++ [e] := List.mem_append_right _ (by simp)
        rw [List.filter_cons_of_pos (by simpa using h1),
          List.filter_cons_of_neg (by simpa using hi)]
        simp only [List.length_cons, beq_self_eq_true, if_pos, if_true]
        omega
      · have hcnt : ¬ (e == i) = true := by simpa using hei
        rw [if_neg hcnt]
        by_cases he : e ∈ popped
        · have h1 : e ∈ popped ++ [i] := List.mem_append_left _ he
          rw [List.filter_cons_of_pos (by simpa using h1),
            List.filter_cons_of_pos (by simpa using he)]
          simp only [List.length_cons]
          omega
        · have h1 : e ∉ popped ++ [i] := by
            simp only [List.mem_append, List.mem_singleton]
            rintro (h | h)
            · exact he h
            · exact hei h
          rw [List.filter_cons_of_neg (by simpa using h1),
            List.filter_cons_of_neg (by simpa using he)]
          omega

/-- The correctness invariant of Kahn's loop: starting from any state in
which (1) the processed and queued ids are distinct, (2) drawn from the
sorted subset, (3) the degree map counts exactly the not-yet-processed
in-subset parent references, (4) every processed or queued id has all its
in-subset parents processed, and (5) every processed id's in-subset parents
occur earlier in the output, the loop's final output keeps distinct ids and
places every in-subset parent of an output id strictly before it. -/
theorem topoGo_causal
    {full msgs : List Message} {idset : Finset Nat}
    (Hfull : (full.map (fun m => m.id)).Nodup)
    (Hsub : ∀ m ∈ msgs, m ∈ full)
    (hn : (msgs.map (fun m => m.id)).Nodup)
    (Hidset : idset = (msgs.map (fun m => m.id)).toFinset) :
    ∀ (fuel : Nat) (q : List Nat) (d : Nat → Int) (acc : List Message),
    ((acc.map (fun m => m.id)) ++ q).Nodup →
    (∀ x ∈ (acc.map (fun m => m.id)) ++ q, x ∈ msgs.map (fun m => m.id)) →
    (∀ j, d j = ((inParents msgs idset j).length : Int) -
      (((inParents msgs idset j).filter
        (fun p => decide (p ∈ acc.map (fun m => m.id)))).length : Int)) →
    (∀ j ∈ (acc.map (fun m => m.id)) ++ q, ∀ p ∈ inParents msgs idset j,
      p ∈ acc.map (fun m => m.id)) →
    (∀ (b j : Nat), (acc.map (fun m => m.id))[b]? = some j →
      ∀ p ∈ inParents msgs idset j,
      ∃ a : Nat, a < b ∧ (acc.map (fun m => m.id))[a]? = some p) →
    ((topoGo (dagLookup full) (childrenMap msgs idset) fuel q d acc).map
        (fun m => m.id)).Nodup ∧
    (∀ (b j : Nat),
      ((topoGo (dagLookup full) (childrenMap msgs idset) fuel q d acc).map
        (fun m => m.id))[b]? = some j →
      ∀ p ∈ inParents msgs idset j,
      ∃ a : Nat, a < b ∧
        ((topoGo (dagLookup full) (childrenMap msgs idset) fuel q d acc).map
          (fun m => m.id))[a]? = some p) := by
  intro fuel
  induction fuel with
  | zero =>
      intro q d acc h1 _ _ _ h5
      exact ⟨h1.of_append_left, h5⟩
  | succ fuel ih =>
      intro q d acc h1 h2 h3 h4 h5
      cases q with
      | nil =>
          rw [topoGo]
          exact ⟨(by simpa using h1 : (acc.map (fun m => m.id)).Nodup), h5⟩
      | cons i qs =>
          -- the popped id belongs to the subset
          have hiq : i ∈ (acc.map (fun m => m.id)) ++ (i :: qs) := by
            simp
          have hiids : i ∈ msgs.map (fun m => m.id) := h2 i hiq
          obtain ⟨m, hmmsgs, hmid⟩ := List.mem_map.mp hiids
          have hlookup : dagLookup full i = some m :=
            dagLookup_eq_some Hfull (Hsub m hmmsgs) hmid
          have hstep : topoGo (dagLookup full) (childrenMap msgs idset)
              (fuel + 1) (i :: qs) d acc =
              topoGo (dagLookup full) (childrenMap msgs idset) fuel
                (qs ++ List.insertionSort (keyLe (dagLookup full))
                  (decStep d (childrenMap msgs idset i)).2)
                (decStep d (childrenMap msgs idset i)).1 (acc ++ [m]) := by
            rw [topoGo, hlookup]
          rw [hstep]
          -- notation for the new state
          have hpopped1 : (acc ++ [m]).map (fun m => m.id) =
              (acc.map (fun m => m.id)) ++ [i] := by
            rw [List.map_append]
            simp [hmid]
          have hinotpopped : i ∉ acc.map (fun m => m.id) := by
            intro hmem
            have hd := List.disjoint_of_nodup_append h1
            exact hd hmem (by simp)
          have hd' : (decStep d (childrenMap msgs idset i)).1 =
              fun x => d x - (childrenMap msgs idset i).count x :=
            decStep_fst _ d
          have hd'j : ∀ j, (decStep d (childrenMap msgs idset i)).1 j =
              d j - ((childrenMap msgs idset i).count j : Int) := by
            intro j
            rw [hd']
          -- new degree characterisation (i3')
          have h3' : ∀ j, (decStep d (childrenMap msgs idset i)).1 j =
              ((inParents msgs idset j).length : Int) -
              (((inParents msgs idset j).filter
                (fun p => decide (p ∈ (acc ++ [m]).map (fun m => m.id)))).length
                : Int) := by
            intro j
            rw [hd'j j, hpopped1]
            have hlen := length_filter_mem_append hinotpopped
              (inParents msgs idset j)
            rw [hlen]
            rw [count_childrenMap hn idset i j]
            rw [h3 j]
            push_cast
            ring
          -- membership in the processable batch
          have hps : ∀ x, x ∈ (decStep d (childrenMap msgs idset i)).2 ↔
              (1 ≤ d x ∧ d x ≤ ((childrenMap msgs idset i).count x : Int)) :=
            fun x => decStep_mem _ d x
          -- an id already processed or queued has degree zero
          have hdegzero : ∀ x, x ∈ (acc.map (fun m => m.id)) ++ (i :: qs) →
              d x = 0 := by
            intro x hx
            have hpar := h4 x hx
            have hall : (inParents msgs idset x).filter
                (fun p => decide (p ∈ acc.map (fun m => m.id))) =
                inParents msgs idset x := by
              rw [List.filter_eq_self]
              intro p hp
              simpa using hpar p hp
            rw [h3 x, hall]
            ring
          -- the batch is disjoint from everything seen so far
          have hpsfresh : ∀ x, x ∈ (decStep d (childrenMap msgs idset i)).2 →
              x ∉ (acc.map (fun m => m.id)) ++ (i :: qs) := by
            intro x hx hmem
            have h0 := hdegzero x hmem
            have h1x := (hps x).mp hx
            omega
          -- the batch lies inside the subset ids
          have hpsids : ∀ x, x ∈ (decStep d (childrenMap msgs idset i)).2 →
              x ∈ msgs.map (fun m => m.id) := by
            intro x hx
            have h1x := (hps x).mp hx
            have hcnt : 0 < (childrenMap msgs idset i).count x := by omega
            exact mem_ids_of_mem_childrenMap (List.count_pos_iff.mp hcnt)
          have hsortps : ∀ x,
              x ∈ List.insertionSort (keyLe (dagLookup full))
                (decStep d (childrenMap msgs idset i)).2 ↔
              x ∈ (decStep d (childrenMap msgs idset i)).2 :=
            fun x => (List.perm_insertionSort _ _).mem_iff
          -- (i1') nodup of the new processed-plus-queued ids
          have h1' : ((acc ++ [m]).map (fun m => m.id) ++
              (qs ++ List.insertionSort (keyLe (dagLookup full))
                (decStep d (childrenMap msgs idset i)).2)).Nodup := by
            rw [hpopped1]
            have hrearr : (acc.map (fun m => m.id)) ++ [i] ++
                (qs ++ List.insertionSort (keyLe (dagLookup full))
                  (decStep d (childrenMap msgs idset i)).2) =
                ((acc.map (fun m => m.id)) ++ [i] ++ qs) ++
                List.insertionSort (keyLe (dagLookup full))
                  (decStep d (childrenMap msgs idset i)).2 := by
              simp [List.append_assoc]
            rw [hrearr]
            refine List.Nodup.append ?_ ?_ ?_
            · rw [← List.append_cons]
              exact h1
            · exact ((List.perm_insertionSort _ _).nodup_iff).mpr
                (decStep_nodup _ d)
            · intro x hx hx2
              have hx3 := (hsortps x).mp hx2
              have := hpsfresh x hx3
              apply this
              rw [List.append_cons] at hx ⊢
              simpa using hx
          -- (i2')
          have h2' : ∀ x, x ∈ (acc ++ [m]).map (fun m => m.id) ++
              (qs ++ List.insertionSort (keyLe (dagLookup full))
                (decStep d (childrenMap msgs idset i)).2) →
              x ∈ msgs.map (fun m => m.id) := by
            intro x hx
            rw [hpopped1] at hx
            rcases List.mem_append.mp hx with hx | hx
            · rcases List.mem_append.mp hx with hx | hx
              · exact h2 x (List.mem_append_left _ hx)
              · have : x = i := by simpa using hx
                subst this
                exact hiids
            · rcases List.mem_append.mp hx with hx | hx
              · exact h2 x (by simp [hx])
              · exact hpsids x ((hsortps x).mp hx)
          -- (i4')
          have h4' : ∀ j, j ∈ (acc ++ [m]).map (fun m => m.id) ++
              (qs ++ List.insertionSort (keyLe (dagLookup full))
                (decStep d (childrenMap msgs idset i)).2) →
              ∀ p ∈ inParents msgs idset j,
              p ∈ (acc ++ [m]).map (fun m => m.id) := by
            intro j hj p hp
            rw [hpopped1] at hj ⊢
            have hold : j ∈ (acc.map (fun m => m.id)) ++ (i :: qs) →
                p ∈ (acc.map (fun m => m.id)) ++ [i] := by
              intro hjold
              exact List.mem_append_left _ (h4 j hjold p hp)
            rcases List.mem_append.mp hj with hj1 | hj1
            · rcases List.mem_append.mp hj1 with hj2 | hj2
              · exact hold (List.mem_append_left _ hj2)
              · have : j = i := by simpa using hj2
                subst this
                exact hold (by simp)
            · rcases List.mem_append.mp hj1 with hj2 | hj2
              · exact hold (by simp [hj2])
              · -- j freshly processable: all its parents are now processed
                have hj3 := (hps j).mp ((hsortps j).mp hj2)
                have hcount := count_childrenMap hn idset i j
                have hF := length_filter_mem_append hinotpopped
                  (inParents msgs idset j)
                have hle := List.length_filter_le
                  (fun p => decide (p ∈ (acc.map (fun m => m.id)) ++ [i]))
                  (inParents msgs idset j)
                have h3j := h3 j
                have hfull : ((inParents msgs idset j).filter
                    (fun p => decide (p ∈ (acc.map (fun m => m.id)) ++ [i]))).length
                    = (inParents msgs idset j).length := by omega
                have hmem := List.filter_length_eq_length.mp hfull p hp
                simpa using hmem
          -- (i5')
          have h5' : ∀ (b j : Nat),
              ((acc ++ [m]).map (fun m => m.id))[b]? = some j →
              ∀ p ∈ inParents msgs idset j,
              ∃ a : Nat, a < b ∧
                ((acc ++ [m]).map (fun m => m.id))[a]? = some p := by
            intro b j hb p hp
            rw [hpopped1] at hb ⊢
            by_cases hblen : b < (acc.map (fun m => m.id)).length
            · rw [List.getElem?_append_left hblen] at hb
              obtain ⟨a, ha1, ha2⟩ := h5 b j hb p hp
              refine ⟨a, ha1, ?_⟩
              rw [List.getElem?_append_left (by omega)]
              exact ha2
            · by_cases hblen2 : b < (acc.map (fun m => m.id)).length + 1
              · -- b is the new last position: j = i
                have hbl : b = (acc.map (fun m => m.id)).length := by omega
                subst hbl
                have hji : i = j := by
                  rw [List.getElem?_append_right (by omega)] at hb
                  simpa using hb
                subst hji
                have hpin : p ∈ acc.map (fun m => m.id) :=
                  h4 i (by simp) p hp
                obtain ⟨a, ha⟩ := List.mem_iff_getElem?.mp hpin
                have halen : a < (acc.map (fun m => m.id)).length := by
                  obtain ⟨h, _⟩ := List.getElem?_eq_some_iff.mp ha
                  exact h
                refine ⟨a, halen, ?_⟩
                rw [List.getElem?_append_left halen]
                exact ha
              · exfalso
                have hlen2 : ((acc.map (fun m => m.id)) ++ [i]).length ≤ b := by
                  simp only [List.length_append, List.length_map,
                    List.length_singleton]
                  simp only [List.length_map] at hblen2
                  omega
                have hnone : ((acc.map (fun m => m.id)) ++ [i])[b]? = none :=
                  List.getElem?_eq_none hlen2
                rw [hnone] at hb
                cases hb
          exact ih _ _ _ h1' h2' h3' h4' h5'

theorem topologicalSort_causal
    {full msgs : List Message}
    (Hfull : (full.map (fun m => m.id)).Nodup)
    (Hsub : ∀ m ∈ msgs, m ∈ full)
    (hn : (msgs.map (fun m => m.id)).Nodup) :
    ((topologicalSort (dagLookup full) msgs).map (fun m => m.id)).Nodup ∧
    (∀ (b j : Nat),
      ((topologicalSort (dagLookup full) msgs).map
        (fun m => m.id))[b]? = some j →
      ∀ p ∈ inParents msgs ((msgs.map (fun m => m.id)).toFinset) j,
      ∃ a : Nat, a < b ∧
        ((topologicalSort (dagLookup full) msgs).map
          (fun m => m.id))[a]? = some p) := by
  unfold topologicalSort
  by_cases he : msgs.isEmpty = true
  · rw [if_pos he]
    refine ⟨by simp, ?_⟩
    intro b j hb
    simp at hb
  · rw [if_neg he]
    have hd0 : ∀ j, initDeg msgs ((msgs.map (fun m => m.id)).toFinset) j =
        ((inParents msgs ((msgs.map (fun m => m.id)).toFinset) j).length
          : Int) -
        (((inParents msgs ((msgs.map (fun m => m.id)).toFinset) j).filter
          (fun p => decide
            (p ∈ (([] : List Message).map (fun m => m.id))))).length : Int) :=
      by
        intro j
        have hfe : (inParents msgs ((msgs.map (fun m => m.id)).toFinset)
            j).filter (fun p => decide
              (p ∈ (([] : List Message).map (fun m => m.id)))) = [] := by
          simp
        rw [hfe, initDeg_eq_inParents hn]
        simp
    have hq0n : (List.insertionSort (keyLe (dagLookup full))
        ((msgs.map (fun m => m.id)).filter
          (fun i => decide (initDeg msgs
            ((msgs.map (fun m => m.id)).toFinset) i = 0)))).Nodup :=
      ((List.perm_insertionSort _ _).nodup_iff).mpr (hn.filter _)
    have hq0mem : ∀ x, x ∈ List.insertionSort (keyLe (dagLookup full))
        ((msgs.map (fun m => m.id)).filter
          (fun i => decide (initDeg msgs
            ((msgs.map (fun m => m.id)).toFinset) i = 0))) →
        x ∈ (msgs.map (fun m => m.id)) ∧
          initDeg msgs ((msgs.map (fun m => m.id)).toFinset) x = 0 := by
      intro x hx
      have hx2 := (List.perm_insertionSort _ _).mem_iff.mp hx
      have hx3 := List.mem_filter.mp hx2
      exact ⟨hx3.1, by simpa using hx3.2⟩
    refine topoGo_causal Hfull Hsub hn rfl _ _ _ ([]) ?_ ?_ ?_ ?_ ?_
    · simpa using hq0n
    · intro x hx
      simp only [List.map_nil, List.nil_append] at hx
      exact (hq0mem x hx).1
    · exact hd0
    · intro j hj p hp
      simp only [List.map_nil, List.nil_append] at hj
      have hz := (hq0mem j hj).2
      rw [initDeg_eq_inParents hn] at hz
      have hlen : (inParents msgs ((msgs.map (fun m => m.id)).toFinset)
          j).length = 0 := by
        exact_mod_cast hz
      rw [List.length_eq_zero.mp hlen] at hp
      cases hp
    · intro b j hb
      simp at hb

theorem chanParent_mem_inParents {dag : MessageDAG} {c i j : Nat}
    (hn : (dag.messages.map (fun m => m.id)).Nodup)
    (h : chanParent dag c i j) :
    i ∈ inParents (dag.messages.filter (fun m => m.channel_id == c))
      (((dag.messages.filter (fun m => m.channel_id == c)).map
        (fun m => m.id)).toFinset) j := by
  obtain ⟨m, hm, hmc, hmj, hip, m2, hm2, hm2c, hm2i⟩ := h
  have hmmsgs : m ∈ dag.messages.filter (fun m => m.channel_id == c) :=
    List.mem_filter.mpr ⟨hm, by simpa using hmc⟩
  have hm2msgs : m2 ∈ dag.messages.filter (fun m => m.channel_id == c) :=
    List.mem_filter.mpr ⟨hm2, by simpa using hm2c⟩
  have hnm : ((dag.messages.filter (fun m => m.channel_id == c)).map
      (fun m => m.id)).Nodup :=
    hn.sublist ((List.filter_sublist _).map _)
  have hfind : (dag.messages.filter (fun m => m.channel_id == c)).find?
      (fun x => x.id == j) = some m :=
    dagLookup_eq_some hnm hmmsgs hmj
  unfold inParents
  rw [hfind]
  refine List.mem_filter.mpr ⟨hip, ?_⟩
  simp only [decide_eq_true_eq, List.mem_toFinset]
  exact List.mem_map.mpr ⟨m2, hm2msgs, hm2i⟩

theorem get_ordered_messages_causal (dag : MessageDAG) (c : Nat)
    (hn : (dag.messages.map (fun m => m.id)).Nodup) {i j : Nat}
    (hanc : chanAncestor dag c i j)
    (hj : j ∈ (dag.get_ordered_messages c).map (fun m => m.id)) :
    precedes ((dag.get_ordered_messages c).map (fun m => m.id)) i j := by
  have hsub : ∀ m ∈ dag.messages.filter (fun m => m.channel_id == c),
      m ∈ dag.messages := fun m hm => (List.mem_filter.mp hm).1
  have hnm : ((dag.messages.filter (fun m => m.channel_id == c)).map
      (fun m => m.id)).Nodup :=
    hn.sublist ((List.filter_sublist _).map _)
  have hts := topologicalSort_causal hn hsub hnm
  have hGO : dag.get_ordered_messages c =
      topologicalSort (dagLookup dag.messages)
        (dag.messages.filter (fun m => m.channel_id == c)) := rfl
  rw [hGO] at hj ⊢
  obtain ⟨hnd, hord⟩ := hts
  suffices H : ∀ y, chanAncestor dag c i y →
      y ∈ (topologicalSort (dagLookup dag.messages)
        (dag.messages.filter (fun m => m.channel_id == c))).map
        (fun m => m.id) →
      precedes ((topologicalSort (dagLookup dag.messages)
        (dag.messages.filter (fun m => m.channel_id == c))).map
        (fun m => m.id)) i y by
    exact H j hanc hj
  intro y hy
  induction hy with
  | single h =>
      intro hyin
      obtain ⟨b, hb⟩ := List.mem_iff_getElem?.mp hyin
      obtain ⟨a, ha1, ha2⟩ := hord b _ hb i (chanParent_mem_inParents hn h)
      exact ⟨a, b, ha1, ha2, hb⟩
  | tail hik hkj ih =>
      intro hyin
      obtain ⟨b, hb⟩ := List.mem_iff_getElem?.mp hyin
      obtain ⟨a, ha1, ha2⟩ := hord b _ hb _ (chanParent_mem_inParents hn hkj)
      have hkmem := List.mem_iff_getElem?.mpr ⟨a, ha2⟩
      obtain ⟨a1, b1, hab1, hi1, hk1⟩ := ih hkmem
      have hb1a : b1 = a := nodup_getElem?_inj hnd hk1 ha2
      exact ⟨a1, b, by omega, hi1, hb⟩

/-- C3 counterexample: in `dagCross`, message 1 (channel 0, Lamport 5) is an
ancestor of message 3 (channel 0, Lamport 1) through the channel-1 message 2,
yet `get_ordered_messages` returns [3, 1]: the ancestor appears after its
descendant, because in-degrees only count parents inside the channel
subset. -/
theorem claim_C3_counterexample :
    isAncestor dagCross 1 3 ∧
    (dagCross.get_ordered_messages 0).map (fun m => m.id) = [3, 1] ∧
    ¬ precedes ((dagCross.get_ordered_messages 0).map (fun m => m.id)) 1 3 := by
  refine ⟨?_, by decide, ?_⟩
  · exact Relation.TransGen.tail
      (Relation.TransGen.single
        (show fullParent dagCross 1 2 by decide))
      (show fullParent dagCross 2 3 by decide)
  · have hout : (dagCross.get_ordered_messages 0).map (fun m => m.id) =
        [3, 1] := by decide
    rw [hout]
    rintro ⟨a, b, hab, ha, hb⟩
    rcases a with _ | _ | a <;> rcases b with _ | _ | b <;> simp_all

/-- C3 (amended): `get_ordered_messages` is deterministic — two DAGs storing
the same set of messages (stores that are permutations of one another, with
unique ids) produce the same output sequence for every channel — and
causally sound for in-channel ancestry: if `m1` is an ancestor of `m2`
through a chain of channel-`c` messages and `m2` is in the output, then
`m1` appears strictly before `m2`.  (Ancestry through messages of other
channels is not respected; see the counterexample.) -/
theorem claim_C3_topological_order :
    (∀ (dag1 dag2 : MessageDAG) (c : Nat),
      (dag1.messages.map (fun m => m.id)).Nodup →
      dag1.messages.Perm dag2.messages →
      dag1.get_ordered_messages c = dag2.get_ordered_messages c) ∧
    (∀ (dag : MessageDAG) (c i j : Nat),
      (dag.messages.map (fun m => m.id)).Nodup →
      chanAncestor dag c i j →
      j ∈ (dag.get_ordered_messages c).map (fun m => m.id) →
      precedes ((dag.get_ordered_messages c).map (fun m => m.id)) i j) :=
  ⟨fun dag1 dag2 c hn hp =>
      get_ordered_messages_deterministic dag1 dag2 c hn hp,
    fun dag c i j hn hanc hj =>
      get_ordered_messages_causal dag c hn hanc hj⟩

/-- C3 witness: the two admission orders of the fork produce identical
output, and the root precedes its child in the output. -/
theorem claim_C3_witness :
    (dagFork1.get_ordered_messages 0 = dagFork2.get_ordered_messages 0) ∧
    precedes ((dagFork1.get_ordered_messages 0).map (fun m => m.id)) 1 2 :=
  ⟨claim_C3_topological_order.1 dagFork1 dagFork2 0 (by decide)
      (show List.Perm [msgRoot, msgChild, msgChild2]
          [msgRoot, msgChild2, msgChild] from
        List.Perm.cons msgRoot (List.Perm.swap msgChild2 msgChild [])),
    claim_C3_topological_order.2 dagFork1 0 1 2 (by decide)
      (Relation.TransGen.single (by decide)) (by decide)⟩

/-! ## Theorems: the heads invariant (admission path) -/

theorem hasMessage_iff {dag : MessageDAG} {p : Nat} :
    dag.hasMessage p = true ↔ p ∈ dag.messages.map (fun m => m.id) := by
  unfold MessageDAG.hasMessage
  rw [List.any_eq_true]
  constructor
  · rintro ⟨m, hm, he⟩
    exact List.mem_map.mpr ⟨m, hm, by simpa using he⟩
  · rintro hm
    obtain ⟨m, hm, he⟩ := List.mem_map.mp hm
    exact ⟨m, hm, by simpa using he⟩

theorem storeMessage_fresh {l : List Message} {m : Message}
    (h : m.id ∉ l.map (fun x => x.id)) :
    MessageDAG.storeMessage l m = l ++ [m] := by
  unfold MessageDAG.storeMessage
  congr 1
  rw [List.filter_eq_self]
  intro x hx
  simp only [bne_iff_ne, ne_eq]
  intro he
  exact h (List.mem_map.mpr ⟨x, hx, he⟩)

theorem foldl_erase_eq : ∀ (l : List Nat) (s : Finset Nat),
    l.foldl (fun s p => s.erase p) s = s \ l.toFinset := by
  intro l
  induction l with
  | nil => intro s; simp
  | cons p ps ih =>
      intro s
      rw [List.foldl_cons, ih]
      ext x
      simp only [Finset.mem_sdiff, Finset.mem_erase, List.toFinset_cons,
        Finset.mem_insert, List.mem_toFinset]
      tauto

theorem add_message_ok_spec {dag : MessageDAG} {m : Message}
    {dag2 : MessageDAG} (h : dag.add_message m = .ok dag2) :
    (∀ p ∈ m.parent_hashes, p ∈ dag.messages.map (fun x => x.id)) ∧
    dag2.messages = MessageDAG.storeMessage dag.messages m ∧
    (∀ c, dag2.heads c = if c = m.channel_id then
      insert m.id (dag.heads m.channel_id \ m.parent_hashes.toFinset)
      else dag.heads c) := by
  unfold MessageDAG.add_message at h
  rcases hfind : m.parent_hashes.find? (fun p => !dag.hasMessage p)
    with _ | p
  · rw [hfind] at h
    simp only [Except.ok.injEq] at h
    subst h
    refine ⟨?_, rfl, ?_⟩
    · intro p hp
      have h1 := List.find?_eq_none.mp hfind p hp
      rw [← hasMessage_iff]
      simpa using h1
    · intro c
      simp only [updSet, foldl_erase_eq]
      by_cases hc : c = m.channel_id
      · simp [hc]
      · simp [hc]
  · rw [hfind] at h
    cases h

/-- One successful admission of a fresh message preserves unique ids,
parents-present, and the heads invariant. -/
theorem add_message_preserves {dag : MessageDAG} {m : Message}
    {dag2 : MessageDAG} (h : dag.add_message m = .ok dag2)
    (W1 : (dag.messages.map (fun x => x.id)).Nodup)
    (W2 : ∀ x ∈ dag.messages, ∀ p ∈ x.parent_hashes,
      p ∈ dag.messages.map (fun x => x.id))
    (W4 : headsInv dag)
    (hfresh : m.id ∉ dag.messages.map (fun x => x.id)) :
    (dag2.messages.map (fun x => x.id)).Nodup ∧
    (∀ x ∈ dag2.messages, ∀ p ∈ x.parent_hashes,
      p ∈ dag2.messages.map (fun x => x.id)) ∧
    headsInv dag2 := by
  obtain ⟨hpar, hmsgs, hheads⟩ := add_message_ok_spec h
  rw [storeMessage_fresh hfresh] at hmsgs
  have hids2 : dag2.messages.map (fun x => x.id) =
      (dag.messages.map (fun x => x.id)) ++ [m.id] := by
    rw [hmsgs, List.map_append]
    rfl
  have hmem2 : ∀ x, x ∈ dag2.messages ↔ x ∈ dag.messages ∨ x = m := by
    intro x
    rw [hmsgs]
    simp
  refine ⟨?_, ?_, ?_⟩
  · rw [hids2]
    refine List.Nodup.append W1 (by simp) ?_
    intro x hx hx2
    have : x = m.id := by simpa using hx2
    subst this
    exact hfresh hx
  · intro x hx p hp
    rw [hids2]
    rcases (hmem2 x).mp hx with hx1 | hx1
    · exact List.mem_append_left _ (W2 x hx1 p hp)
    · subst hx1
      exact List.mem_append_left _ (hpar p hp)
  · -- heads invariant for the extended DAG
    intro c i
    rw [hheads c]
    have hnoref : ∀ x ∈ dag.messages, m.id ∉ x.parent_hashes := by
      intro x hx hmemp
      exact hfresh (W2 x hx m.id hmemp)
    have hnoselfp : m.id ∉ m.parent_hashes := by
      intro hmemp
      exact hfresh (hpar m.id hmemp)
    constructor
    · intro hi
      by_cases hc : c = m.channel_id
      · rw [if_pos hc] at hi
        rcases Finset.mem_insert.mp hi with hi1 | hi1
        · -- i = m.id : the new message is a sink of its channel
          subst hi1
          refine ⟨⟨m, (hmem2 m).mpr (Or.inr rfl), rfl, hc.symm⟩, ?_⟩
          rintro ⟨m2, hm2, _, href⟩
          rcases (hmem2 m2).mp hm2 with hm2a | hm2a
          · exact hnoref m2 hm2a href
          · subst hm2a
            exact hnoselfp href
        · -- i was a sink and is not a parent of m
          obtain ⟨hiold, hinp⟩ := Finset.mem_sdiff.mp hi1
          obtain ⟨⟨mx, hmx, hmxid, hmxc⟩, hnos⟩ :=
            (W4 m.channel_id i).mp hiold
          refine ⟨⟨mx, (hmem2 mx).mpr (Or.inl hmx), hmxid,
            hmxc.trans hc.symm⟩, ?_⟩
          rintro ⟨m2, hm2, hm2c, href⟩
          rcases (hmem2 m2).mp hm2 with hm2a | hm2a
          · exact hnos ⟨m2, hm2a, hm2c.trans hc, href⟩
          · subst hm2a
            exact hinp (List.mem_toFinset.mpr href)
      · rw [if_neg hc] at hi
        obtain ⟨⟨mx, hmx, hmxid, hmxc⟩, hnos⟩ := (W4 c i).mp hi
        refine ⟨⟨mx, (hmem2 mx).mpr (Or.inl hmx), hmxid, hmxc⟩, ?_⟩
        rintro ⟨m2, hm2, hm2c, href⟩
        rcases (hmem2 m2).mp hm2 with hm2a | hm2a
        · exact hnos ⟨m2, hm2a, hm2c, href⟩
        · subst hm2a
          exact hc hm2c.symm
    · rintro ⟨⟨mx, hmx, hmxid, hmxc⟩, hnos⟩
      rcases (hmem2 mx).mp hmx with hmxa | hmxa
      · -- i is the id of an old message: it was an old sink not referenced
        -- by m
        have hiold : i ∈ dag.heads c := by
          refine (W4 c i).mpr ⟨⟨mx, hmxa, hmxid, hmxc⟩, ?_⟩
          rintro ⟨m2, hm2, hm2c, href⟩
          exact hnos ⟨m2, (hmem2 m2).mpr (Or.inl hm2), hm2c, href⟩
        by_cases hc : c = m.channel_id
        · rw [if_pos hc]
          subst hc
          refine Finset.mem_insert.mpr (Or.inr (Finset.mem_sdiff.mpr
            ⟨hiold, ?_⟩))
          intro hip
          exact hnos ⟨m, (hmem2 m).mpr (Or.inr rfl), rfl,
            List.mem_toFinset.mp hip⟩
        · rw [if_neg hc]
          exact hiold
      · -- i = m.id : lands in the inserted head of m's channel
        have hc : c = m.channel_id := by rw [← hmxc, hmxa]
        rw [if_pos hc]
        refine Finset.mem_insert.mpr (Or.inl ?_)
        rw [← hmxid, hmxa]

theorem addAll_invariant : ∀ (ms : List Message) (dag0 dag : MessageDAG),
    (dag0.messages.map (fun x => x.id)).Nodup →
    (∀ x ∈ dag0.messages, ∀ p ∈ x.parent_hashes,
      p ∈ dag0.messages.map (fun x => x.id)) →
    headsInv dag0 →
    (∀ m ∈ ms, m.id ∉ dag0.messages.map (fun x => x.id)) →
    (ms.map (fun m => m.id)).Nodup →
    addAll dag0 ms = .ok dag →
    headsInv dag := by
  intro ms
  induction ms with
  | nil =>
      intro dag0 dag _ _ W4 _ _ h
      have he : dag0 = dag := by
        simpa [addAll, pure, Except.pure] using h
      exact he ▸ W4
  | cons m rest ih =>
      intro dag0 dag W1 W2 W4 hfresh hnodup h
      rw [addAll, List.foldlM_cons] at h
      rcases hadd : dag0.add_message m with e | d1
      · rw [hadd] at h
        simp [Bind.bind, Except.bind] at h
      · rw [hadd] at h
        have h2 : addAll d1 rest = .ok dag := by
          simpa [Bind.bind, Except.bind, addAll] using h
        have hfreshm : m.id ∉ dag0.messages.map (fun x => x.id) :=
          hfresh m (by simp)
        obtain ⟨N1, N2, N4⟩ := add_message_preserves hadd W1 W2 W4 hfreshm
        obtain ⟨hpar, hmsgs, _⟩ := add_message_ok_spec hadd
        have hid1 : d1.messages.map (fun x => x.id) =
            dag0.messages.map (fun x => x.id) ++ [m.id] := by
          rw [hmsgs, storeMessage_fresh hfreshm, List.map_append]
          rfl
        rw [List.map_cons, List.nodup_cons] at hnodup
        refine ih d1 dag N1 N2 N4 ?_ hnodup.2 h2
        intro m2 hm2
        rw [hid1]
        simp only [List.mem_append, List.mem_singleton]
        rintro (hin | hin)
        · exact hfresh m2 (by simp [hm2]) hin
        · exact hnodup.1 (hin ▸ List.mem_map.mpr ⟨m2, hm2, rfl⟩)

theorem headsInv_new : headsInv MessageDAG.new := by
  intro c i
  constructor
  · intro hi
    exact absurd hi (Finset.not_mem_empty i)
  · rintro ⟨⟨m, hm, _⟩, _⟩
    cases hm

/-- The admission half of C4: any batch of distinct-id messages admitted
successfully one by one into the empty DAG leaves `heads` equal to the
channel-restricted sink sets — including batches with cross-channel parent
references. -/
theorem addAll_headsInv (ms : List Message) (dag : MessageDAG)
    (hnodup : (ms.map (fun m => m.id)).Nodup)
    (h : addAll MessageDAG.new ms = .ok dag) : headsInv dag :=
  addAll_invariant ms MessageDAG.new dag (by simp [MessageDAG.new])
    (by intro x hx; cases hx) headsInv_new
    (by intro m _ hm; simp [MessageDAG.new] at hm) hnodup h

/-! ## Theorems: the heads invariant (bulk-load path) -/

theorem loadChildFold (pred : Nat → Bool) (mid : Nat) :
    ∀ (parents : List Nat) (ch : Nat → Finset Nat) (q x : Nat),
    x ∈ (parents.foldl
      (fun ch p => if pred p then updSet ch p (insert mid (ch p)) else ch)
      ch) q ↔
    (x ∈ ch q ∨ (x = mid ∧ q ∈ parents ∧ pred q = true)) := by
  intro parents
  induction parents with
  | nil =>
      intro ch q x
      simp
  | cons p ps ih =>
      intro ch q x
      rw [List.foldl_cons]
      by_cases hp : pred p = true
      · rw [if_pos hp, ih]
        by_cases hq : q = p
        · subst hq
          have hupd : (updSet ch q (insert mid (ch q))) q =
              insert mid (ch q) := by simp [updSet]
          rw [hupd, Finset.mem_insert]
          simp only [List.mem_cons, hp, and_true]
          constructor
          · rintro ((h | h) | ⟨h1, _⟩)
            · exact Or.inr ⟨h, Or.inl trivial⟩
            · exact Or.inl h
            · exact Or.inr ⟨h1, Or.inl trivial⟩
          · rintro (h | ⟨h1, _⟩)
            · exact Or.inl (Or.inr h)
            · exact Or.inl (Or.inl h1)
        · have hupd : (updSet ch p (insert mid (ch p))) q = ch q := by
            simp [updSet, hq]
          rw [hupd]
          simp [List.mem_cons, hq]
      · rw [if_neg hp, ih]
        by_cases hq : q = p
        · subst hq
          simp [List.mem_cons, hp]
        · simp [List.mem_cons, hq]

theorem loadStep_children_mem (acc : MessageDAG) (msg : Message)
    (q x : Nat) :
    x ∈ (MessageDAG.loadStep acc msg).children q ↔
    (x ∈ acc.children q ∨ (x = msg.id ∧ q ∈ msg.parent_hashes ∧
      q ∈ acc.messages.map (fun m => m.id))) := by
  have h := loadChildFold (fun p => acc.hasMessage p) msg.id
    msg.parent_hashes acc.children q x
  rw [show (MessageDAG.loadStep acc msg).children =
    msg.parent_hashes.foldl
      (fun ch p =>
        if acc.hasMessage p then updSet ch p (insert msg.id (ch p))
        else ch)
      acc.children from rfl]
  rw [h, hasMessage_iff]

theorem loadFold_spec : ∀ (l : List Message) (acc : MessageDAG),
    ((acc.messages.map (fun m => m.id)) ++ (l.map (fun m => m.id))).Nodup →
    (∀ m ∈ l, m.id ∉ m.parent_hashes) →
    l.Pairwise (fun a b => b.id ∉ a.parent_hashes) →
    (l.foldl MessageDAG.loadStep acc).messages = acc.messages ++ l ∧
    (∀ q x, x ∈ (l.foldl MessageDAG.loadStep acc).children q ↔
      (x ∈ acc.children q ∨
      (∃ ch ∈ l, ch.id = x ∧ q ∈ ch.parent_hashes ∧
        (q ∈ acc.messages.map (fun m => m.id) ∨
          ∃ par ∈ l, par.id = q)))) := by
  intro l
  induction l with
  | nil =>
      intro acc _ _ _
      refine ⟨by simp, ?_⟩
      intro q x
      simp
  | cons m rest ih =>
      intro acc hnodup hnself hpw
      have hfreshm : m.id ∉ acc.messages.map (fun x => x.id) := by
        intro hin
        have hd := List.disjoint_of_nodup_append hnodup
        exact hd hin (by simp)
      have hmsgs1 : (MessageDAG.loadStep acc m).messages =
          acc.messages ++ [m] := by
        rw [show (MessageDAG.loadStep acc m).messages =
          MessageDAG.storeMessage acc.messages m from rfl]
        exact storeMessage_fresh hfreshm
      have hids1 : (MessageDAG.loadStep acc m).messages.map
          (fun x => x.id) = (acc.messages.map (fun x => x.id)) ++ [m.id] := by
        rw [hmsgs1, List.map_append]
        rfl
      have hnodup1 : ((MessageDAG.loadStep acc m).messages.map
          (fun x => x.id) ++ rest.map (fun x => x.id)).Nodup := by
        rw [hids1, List.append_assoc]
        exact hnodup
      rw [List.pairwise_cons] at hpw
      rw [List.foldl_cons]
      obtain ⟨hmsgs2, hch2⟩ := ih (MessageDAG.loadStep acc m) hnodup1
        (fun x hx => hnself x (by simp [hx])) hpw.2
      constructor
      · rw [hmsgs2, hmsgs1, List.append_assoc]
        rfl
      · intro q x
        rw [hch2 q x, loadStep_children_mem]
        have hmemm : ∀ y, y ∈ (MessageDAG.loadStep acc m).messages.map
            (fun z => z.id) ↔
            (y ∈ acc.messages.map (fun z => z.id) ∨ y = m.id) := by
          intro y
          rw [hids1]
          simp
        constructor
        · rintro ((h | ⟨h1, h2, h3⟩) | ⟨ch, hch, h1, h2, h3⟩)
          · exact Or.inl h
          · exact Or.inr ⟨m, by simp, h1.symm, h2, Or.inl h3⟩
          · rcases h3 with h3 | ⟨par, hpar, h4⟩
            · rcases (hmemm q).mp h3 with h5 | h5
              · exact Or.inr ⟨ch, by simp [hch], h1, h2, Or.inl h5⟩
              · exact Or.inr ⟨ch, by simp [hch], h1, h2,
                  Or.inr ⟨m, by simp, h5.symm⟩⟩
            · exact Or.inr ⟨ch, by simp [hch], h1, h2,
                Or.inr ⟨par, by simp [hpar], h4⟩⟩
        · rintro (h | ⟨ch, hch, h1, h2, h3⟩)
          · exact Or.inl (Or.inl h)
          · rcases List.mem_cons.mp hch with hch1 | hch1
            · -- the child is m itself: its present parent must already be
              -- stored (no self-parent, no forward reference)
              subst hch1
              rcases h3 with h3 | ⟨par, hpar, h4⟩
              · exact Or.inl (Or.inr ⟨h1.symm, h2, h3⟩)
              · rcases List.mem_cons.mp hpar with hpar1 | hpar1
                · subst hpar1
                  exact absurd h2 (h4 ▸ hnself par (by simp))
                · exact absurd h2 (h4 ▸ hpw.1 par hpar1)
            · refine Or.inr ⟨ch, hch1, h1, h2, ?_⟩
              rcases h3 with h3 | ⟨par, hpar, h4⟩
              · exact Or.inl ((hmemm q).mpr (Or.inl h3))
              · rcases List.mem_cons.mp hpar with hpar1 | hpar1
                · subst hpar1
                  exact Or.inl ((hmemm q).mpr (Or.inr h4.symm))
                · exact Or.inr ⟨par, hpar1, h4⟩

theorem rebuildHeadsAux (children : Nat → Finset Nat) :
    ∀ (l : List Message) (h0 : Nat → Finset Nat) (c i : Nat),
    i ∈ (l.foldl
      (fun h m =>
        if children m.id = ∅ then
          updSet h m.channel_id (insert m.id (h m.channel_id))
        else h)
      h0) c ↔
    (i ∈ h0 c ∨ ∃ m ∈ l, children m.id = ∅ ∧ m.id = i ∧
      m.channel_id = c) := by
  intro l
  induction l with
  | nil =>
      intro h0 c i
      simp
  | cons m rest ih =>
      intro h0 c i
      rw [List.foldl_cons, ih]
      by_cases hm : children m.id = ∅
      · rw [if_pos hm]
        by_cases hc : c = m.channel_id
        · subst hc
          have hupd : (updSet h0 m.channel_id
              (insert m.id (h0 m.channel_id))) m.channel_id =
              insert m.id (h0 m.channel_id) := by simp [updSet]
          rw [hupd, Finset.mem_insert]
          constructor
          · rintro ((h | h) | ⟨x, hx, h1, h2, h3⟩)
            · exact Or.inr ⟨m, by simp, hm, h.symm, rfl⟩
            · exact Or.inl h
            · exact Or.inr ⟨x, by simp [hx], h1, h2, h3⟩
          · rintro (h | ⟨x, hx, h1, h2, h3⟩)
            · exact Or.inl (Or.inr h)
            · rcases List.mem_cons.mp hx with hx1 | hx1
              · subst hx1
                exact Or.inl (Or.inl h2.symm)
              · exact Or.inr ⟨x, hx1, h1, h2, h3⟩
        · have hupd : (updSet h0 m.channel_id
              (insert m.id (h0 m.channel_id))) c = h0 c := by
            simp [updSet, hc]
          rw [hupd]
          constructor
          · rintro (h | ⟨x, hx, h1, h2, h3⟩)
            · exact Or.inl h
            · exact Or.inr ⟨x, by simp [hx], h1, h2, h3⟩
          · rintro (h | ⟨x, hx, h1, h2, h3⟩)
            · exact Or.inl h
            · rcases List.mem_cons.mp hx with hx1 | hx1
              · subst hx1
                exact absurd h3.symm hc
              · exact Or.inr ⟨x, hx1, h1, h2, h3⟩
      · rw [if_neg hm]
        constructor
        · rintro (h | ⟨x, hx, h1, h2, h3⟩)
          · exact Or.inl h
          · exact Or.inr ⟨x, by simp [hx], h1, h2, h3⟩
        · rintro (h | ⟨x, hx, h1, h2, h3⟩)
          · exact Or.inl h
          · rcases List.mem_cons.mp hx with hx1 | hx1
            · subst hx1
              exact absurd h1 hm
            · exact Or.inr ⟨x, hx1, h1, h2, h3⟩

theorem rebuildHeads_mem (msgs : List Message)
    (children : Nat → Finset Nat) (c i : Nat) :
    i ∈ MessageDAG.rebuildHeads msgs children c ↔
    ∃ m ∈ msgs, children m.id = ∅ ∧ m.id = i ∧ m.channel_id = c := by
  unfold MessageDAG.rebuildHeads
  rw [rebuildHeadsAux]
  simp

/-- The bulk-load half of C4: loading a batch of distinct-id messages whose
in-batch parents are same-channel and strictly older (`created_at`) into an
empty DAG re-establishes the heads invariant. -/
theorem load_messages_headsInv (ms : List Message)
    (hnodup : (ms.map (fun m => m.id)).Nodup)
    (hpar : ∀ m ∈ ms, ∀ p ∈ m.parent_hashes, ∀ m2 ∈ ms, m2.id = p →
      m2.channel_id = m.channel_id ∧ m2.created_at < m.created_at) :
    headsInv (MessageDAG.new.load_messages ms) := by
  have hperm : (List.insertionSort
      (fun a b : Message => a.created_at ≤ b.created_at) ms).Perm ms :=
    List.perm_insertionSort _ _
  set sorted := List.insertionSort
    (fun a b : Message => a.created_at ≤ b.created_at) ms with hsorteddef
  have hmemiff : ∀ m, m ∈ sorted ↔ m ∈ ms := fun m => hperm.mem_iff
  have hnods : (sorted.map (fun m => m.id)).Nodup :=
    ((hperm.map _).nodup_iff).mpr hnodup
  have hnself : ∀ m ∈ sorted, m.id ∉ m.parent_hashes := by
    intro m hm hp
    have h2 := hpar m ((hmemiff m).mp hm) m.id hp m ((hmemiff m).mp hm) rfl
    omega
  haveI : IsTotal Message (fun a b => a.created_at ≤ b.created_at) :=
    ⟨fun a b => Nat.le_total _ _⟩
  haveI : IsTrans Message (fun a b => a.created_at ≤ b.created_at) :=
    ⟨fun a b c h1 h2 => Nat.le_trans h1 h2⟩
  have hsort : List.Sorted (fun a b : Message =>
      a.created_at ≤ b.created_at) sorted :=
    List.sorted_insertionSort _ _
  have hpw : sorted.Pairwise (fun a b => b.id ∉ a.parent_hashes) := by
    refine hsort.imp_of_mem ?_
    intro a b ha hb hle hbid
    have h2 := hpar a ((hmemiff a).mp ha) b.id hbid b ((hmemiff b).mp hb) rfl
    omega
  obtain ⟨hmsgs, hch⟩ := loadFold_spec sorted MessageDAG.new
    (by simpa [MessageDAG.new] using hnods) hnself hpw
  have hmsgs2 : (sorted.foldl MessageDAG.loadStep MessageDAG.new).messages =
      sorted := by
    simpa [MessageDAG.new] using hmsgs
  have hch2 : ∀ q x,
      x ∈ (sorted.foldl MessageDAG.loadStep MessageDAG.new).children q ↔
      (∃ ch ∈ sorted, ch.id = x ∧ q ∈ ch.parent_hashes ∧
        ∃ par ∈ sorted, par.id = q) := by
    intro q x
    rw [hch q x]
    simp [MessageDAG.new]
  have hH : (MessageDAG.new.load_messages ms).heads =
      MessageDAG.rebuildHeads
        (sorted.foldl MessageDAG.loadStep MessageDAG.new).messages
        (sorted.foldl MessageDAG.loadStep MessageDAG.new).children := rfl
  have hM : (MessageDAG.new.load_messages ms).messages =
      (sorted.foldl MessageDAG.loadStep MessageDAG.new).messages := rfl
  intro c i
  rw [hH, rebuildHeads_mem, hmsgs2]
  unfold isChanSink
  rw [hM, hmsgs2]
  constructor
  · rintro ⟨m, hm, hemp, hid, hcn⟩
    refine ⟨⟨m, hm, hid, hcn⟩, ?_⟩
    rintro ⟨m2, hm2, hm2c, href⟩
    have hmem : m2.id ∈
        (sorted.foldl MessageDAG.loadStep MessageDAG.new).children m.id :=
      (hch2 m.id m2.id).mpr ⟨m2, hm2, rfl, hid ▸ href, ⟨m, hm, rfl⟩⟩
    exact Finset.eq_empty_iff_forall_not_mem.mp hemp m2.id hmem
  · rintro ⟨⟨m, hm, hid, hcn⟩, hns⟩
    refine ⟨m, hm, ?_, hid, hcn⟩
    rw [Finset.eq_empty_iff_forall_not_mem]
    intro x hx
    obtain ⟨ch, hchm, hchid, hpmem, _⟩ := (hch2 m.id x).mp hx
    have h2 := hpar ch ((hmemiff ch).mp hchm) m.id hpmem m
      ((hmemiff m).mp hm) rfl
    exact hns ⟨ch, hchm, h2.1 ▸ hcn, hid ▸ hpmem⟩

/-- C4 counterexample: bulk-loading a channel-0 root whose only child lives
on channel 1 leaves `heads` missing the channel-0 sink — `load_messages`
rebuilds heads from the unrestricted child map, while the admission path
maintains the channel-restricted invariant on the same two messages. -/
theorem claim_C4_counterexample :
    isChanSink dagCrossLoad 0 1 ∧ 1 ∉ dagCrossLoad.heads 0 ∧
    1 ∈ ((MessageDAG.new.applyAdd msgRoot).applyAdd msgBridge).heads 0 := by
  refine ⟨by decide, by decide, by decide⟩

/-- C4 (amended): `heads[c]` equals the channel-`c` sink set (I2) after
every sequence of successful `add_message` admissions of distinct-id
messages starting from the empty DAG — including cross-channel parent
references — and is re-established by `load_messages` for distinct-id
batches whose in-batch parent references are same-channel and strictly
increasing in `created_at` (parents older than children); batches with
absent parents are allowed.  Cross-channel parents break the invariant on
the `load_messages` path (see the counterexample). -/
theorem claim_C4_heads_are_channel_sinks :
    (∀ (ms : List Message) (dag : MessageDAG),
      (ms.map (fun m => m.id)).Nodup →
      addAll MessageDAG.new ms = .ok dag →
      headsInv dag) ∧
    (∀ ms : List Message,
      (ms.map (fun m => m.id)).Nodup →
      (∀ m ∈ ms, ∀ p ∈ m.parent_hashes, ∀ m2 ∈ ms, m2.id = p →
        m2.channel_id = m.channel_id ∧ m2.created_at < m.created_at) →
      headsInv (MessageDAG.new.load_messages ms)) :=
  ⟨fun ms dag hn h => addAll_headsInv ms dag hn h,
    fun ms hn hp => load_messages_headsInv ms hn hp⟩

/-- C4 witness: the invariant holds for the two-message chain, both
admitted message by message and bulk-loaded. -/
theorem claim_C4_witness :
    headsInv dagChain2 ∧
    headsInv (MessageDAG.new.load_messages [msgRoot, msgChild]) :=
  ⟨claim_C4_heads_are_channel_sinks.1 [msgRoot, msgChild] dagChain2
      (by decide) (by rfl),
    claim_C4_heads_are_channel_sinks.2 [msgRoot, msgChild]
      (by decide) (by decide)⟩
